import Mathlib

/-!
Verification development for the `CmaEsCholB` optimizer (a CMA-ES variant with
box bounds, adapted from gonum's `CmaEsChol`).  The Go source is shallowly
embedded: float values that can be NaN or infinite are carried by the
inductive scalar `Fl` (finite values as rationals); purely arithmetic state
(mean, evolution paths, Cholesky factor) is carried over `ℚ` or `ℝ`; in-place
mutation becomes explicit state passing; the two potentially non-terminating
midpoint-contraction loops of `ensureBounds` are embedded with an explicit
fuel, returning `none` exactly when the Go loop would still be running after
`fuel` iterations.  All definitions are translated from the source; the only
definitions following the spec's words instead are explicitly marked
(`specGenMin`, `specStableRanking`).
-/

/-- An IEEE-754-style scalar as Go's `float64` is used by the optimizer for
fitness values and configuration scalars: NaN, plus or minus infinity, or a
finite value (carried as a rational). -/
inductive Fl where
  | nan : Fl
  | pinf : Fl
  | ninf : Fl
  | num : ℚ → Fl
deriving DecidableEq, Repr

namespace Fl

/-- Go's `math.IsNaN`. -/
def isNaN : Fl → Bool
  | .nan => true
  | _ => false

/-- Go's float comparison `x < y`: every comparison involving NaN is false;
minus infinity is below and plus infinity above every finite value. -/
def flt : Fl → Fl → Bool
  | .nan, _ => false
  | _, .nan => false
  | .pinf, _ => false
  | _, .pinf => true
  | .ninf, .ninf => false
  | .ninf, _ => true
  | _, .ninf => false
  | .num a, .num b => decide (a < b)

/-- Go's float comparison `x <= y`: every comparison involving NaN is false. -/
def fle : Fl → Fl → Bool
  | .nan, _ => false
  | _, .nan => false
  | _, .pinf => true
  | .pinf, _ => false
  | .ninf, _ => true
  | .num _, .ninf => false
  | .num a, .num b => decide (a ≤ b)

end Fl

/-! ## Best tracking (`bestIdx`, `findBestAndUpdateTask`) -/

/-- The overall-best fields of the `CmaEsCholB` struct: `bestF` and `bestX`.
The sample coordinates are carried as `Fl` since the generation buffers are
NaN-poisoned between generations. -/
structure BestState where
  bestF : Fl
  bestX : List Fl
deriving DecidableEq, Repr

/-- The loop of `bestIdx`, carrying the running `(best, bestVal)` accumulator
and the index of the next element. -/
def bestIdxFrom : ℕ → ℤ × Fl → List Fl → ℤ × Fl
  | _, acc, [] => acc
  | i, acc, v :: rest =>
    if v.isNaN then bestIdxFrom (i + 1) acc rest
    else if Fl.fle v acc.2 then bestIdxFrom (i + 1) ((i : ℤ), v) rest
    else bestIdxFrom (i + 1) acc rest

/-- Embeds `CmaEsCholB.bestIdx`: the index of the best (smallest, with `<=`
so that later ties win, in case of plus-infinity values) non-NaN entry of
`fs`, starting from `best = -1` and `bestVal = +Inf`; `-1` when every entry
is NaN. -/
def bestIdx (fs : List Fl) : ℤ :=
  (bestIdxFrom 0 (-1, Fl.pinf) fs).1

/-- Embeds `CmaEsCholB.findBestAndUpdateTask`: computes the generation best
via `bestIdx` (`NaN` and row 0 when `bestIdx` is `-1`), then either reports it
directly (`ForgetBest` set) or folds it into the running best and reports the
running best.  Returns the reported `(F, X)` and the new best state. -/
def findBestAndUpdateTask (forget : Bool) (fs : List Fl) (xs : List (List Fl))
    (b : BestState) : (Fl × List Fl) × BestState :=
  let best := bestIdx fs
  let genF := if best = -1 then Fl.nan else fs.getD best.toNat Fl.nan
  let genX := if best = -1 then xs.getD 0 [] else xs.getD best.toNat []
  if forget then ((genF, genX), b)
  else
    let b' := if Fl.flt genF b.bestF then ⟨genF, genX⟩ else b
    ((b'.bestF, b'.bestX), b')

/-- Later-biased float minimum, the accumulator step of the claims'
reference value below. -/
def flMinLate (a v : Fl) : Fl := if Fl.fle v a then v else a

/-- Modelled from the spec's words (step 4.3.8): the generation's minimum
non-NaN ("finite") fitness, NaN when no fitness is non-NaN.  Used as the
reference value that the code's reported fitness is compared with. -/
def specGenMin (fs : List Fl) : Fl :=
  match fs.filter (fun v => !v.isNaN) with
  | [] => Fl.nan
  | v :: rest => rest.foldl flMinLate v

/-- One generation's data: the fitness vector and the sample matrix. -/
abbrev GenData := List Fl × List (List Fl)

/-- The sequence of reported fitness values across generations with
forget-mode off: each generation's report is produced by
`findBestAndUpdateTask false` and the best state is threaded through. -/
def reportedSeq (b : BestState) : List GenData → List Fl
  | [] => []
  | g :: rest =>
    let r := findBestAndUpdateTask false g.1 g.2 b
    r.1.1 :: reportedSeq r.2 rest

/-! ## Bound enforcement (`ensureBounds`)

The source's `ensureBounds(x)` first counts, with non-strict comparisons, the
coordinates on or beyond a bound (`nBounded`); it then fixes each coordinate
with strict comparisons: clamping when `nBounded < len(x)`, otherwise
repeatedly moving the coordinate to the midpoint with the mean.  The two
`for x[i] < Xmin[i]` / `for x[i] > Xmax[i]` loops have no iteration cap in
the source; they are embedded with a fuel, `none` meaning the Go loop is
still running after `fuel` iterations. -/

/-- The lower-bound midpoint loop `for x < lo { x = (x + m) / 2 }`, with
fuel. -/
def contractUp {A : Type} [LinearOrderedField A] (lo m : A) : ℕ → A → Option A
  | 0, x => if x < lo then none else some x
  | fuel + 1, x => if x < lo then contractUp lo m fuel ((x + m) / 2) else some x

/-- The upper-bound midpoint loop `for x > hi { x = (x + m) / 2 }`, with
fuel. -/
def contractDown {A : Type} [LinearOrderedField A] (hi m : A) : ℕ → A → Option A
  | 0, x => if hi < x then none else some x
  | fuel + 1, x => if hi < x then contractDown hi m fuel ((x + m) / 2) else some x

/-- The iterates of the midpoint step `x ↦ (x + m) / 2`. -/
def midIter {A : Type} [LinearOrderedField A] (m x : A) : ℕ → A
  | 0 => x
  | k + 1 => (midIter m x k + m) / 2

/-- The source's membership test of the `nBounded` count: coordinate `i` is
on or beyond a covered bound, with non-strict comparisons
(`x[i] <= Xmin[i]`, `x[i] >= Xmax[i]`). -/
def boundedAt {A : Type} [LinearOrderedField A] (xmin xmax x : List A) (i : ℕ) : Bool :=
  (decide (i < xmin.length) && decide (x.getD i 0 ≤ xmin.getD i 0)) ||
    (decide (i < xmax.length) && decide (xmax.getD i 0 ≤ x.getD i 0))

/-- The `nBounded` count of `CmaEsCholB.ensureBounds`. -/
def nBounded {A : Type} [LinearOrderedField A] (xmin xmax x : List A) : ℕ :=
  ((List.range x.length).filter (boundedAt xmin xmax x)).length

/-- The body of the fixing loop of `ensureBounds` for one coordinate: first
the `x[i] < Xmin[i]` branch, then — on its result — the `x[i] > Xmax[i]`
branch; each branch clamps when `nB < n` and otherwise runs the midpoint
loop.  `lo?`/`hi?` are the bound values when the bound vector covers the
coordinate. -/
def fixCoord {A : Type} [LinearOrderedField A] (nB n : ℕ) (lo? hi? : Option A) (m : A)
    (fuel : ℕ) (x : A) : Option A :=
  (match lo? with
    | some lo =>
      if x < lo then
        if nB < n then some lo else contractUp lo m fuel x
      else some x
    | none => some x).bind fun x1 =>
    match hi? with
    | some hi =>
      if hi < x1 then
        if nB < n then some hi else contractDown hi m fuel x1
      else some x1
    | none => some x1

/-- The fixing loop of `ensureBounds` over all coordinates, `i` the index of
the first element of the remaining suffix of `x`. -/
def fixAll {A : Type} [LinearOrderedField A] (nB n : ℕ) (xmin xmax mean : List A)
    (fuel : ℕ) : ℕ → List A → Option (List A)
  | _, [] => some []
  | i, xi :: rest => do
    let y ← fixCoord nB n xmin[i]? xmax[i]? (mean.getD i 0) fuel xi
    let ys ← fixAll nB n xmin xmax mean fuel (i + 1) rest
    pure (y :: ys)

/-- Embeds `CmaEsCholB.ensureBounds`.  `mean` is the struct's current mean
(read by the midpoint loops), `x` the vector being fixed; each bound vector
may cover only the first coordinates.  The count `nBounded` is taken on the
incoming `x`, then every coordinate is fixed independently (the Go loop
mutates `x[i]` in place, but the fix of coordinate `i` only reads `x[i]`,
`mean[i]` and the bounds at `i`). -/
def ensureBounds {A : Type} [LinearOrderedField A] (fuel : ℕ) (xmin xmax mean x : List A) :
    Option (List A) :=
  fixAll (nBounded xmin xmax x) x.length xmin xmax mean fuel 0 x

/-- The claim-level termination statement for `ensureBounds`: some fuel makes
every midpoint loop of the call exit. -/
def ensureBoundsTerminates (xmin xmax mean x : List ℚ) : Prop :=
  ∃ fuel y, ensureBounds fuel xmin xmax mean x = some y

/-! ## Ranking of a generation (`update`, step 1, and `bestSorter`)

The source sorts the pair (copied fitnesses, indexes) with Go's `sort.Sort`
and the comparator `bestSorter.Less(i, j) = F[i] < F[j]` (float `<`).  For
slices of at most 6 elements `sort.Sort` is exactly the textbook in-place
insertion sort, in every Go release (longer slices may take other code
paths); the insertion sort is embedded here.  The inner loop moves the new
element left past its sorted prefix exactly while `Less(moved, left
neighbour)`; it is modelled on the reversed prefix (rightmost element
first). -/

/-- Go's `insertionSort` inner loop on the reversed sorted prefix `rl`
(rightmost element first): the new pair `p` moves left exactly while
`flt p.1 q.1` holds against its current left neighbour `q`. -/
def goInsertRev (p : Fl × ℕ) : List (Fl × ℕ) → List (Fl × ℕ)
  | [] => [p]
  | q :: rl => if Fl.flt p.1 q.1 then q :: goInsertRev p rl else p :: q :: rl

/-- Go's `insertionSort` outer loop: elements are taken left to right and
inserted into the reversed prefix. -/
def goInsSortRev (l : List (Fl × ℕ)) : List (Fl × ℕ) :=
  l.foldl (fun rl p => goInsertRev p rl) []

/-- The result of `sort.Sort(bestSorter{F, Idx})` on at most 6 elements:
insertion sort of the (fitness, index) pairs under the comparator
`F[i] < F[j]`. -/
def goSortPairs (l : List (Fl × ℕ)) : List (Fl × ℕ) :=
  (goInsSortRev l).reverse

/-- The index permutation produced by step 1 of `CmaEsCholB.update`: the
`indexes` slice after sorting `bestSorter{ftmp, indexes}` (pairs are the
fitnesses zipped with their positions). -/
def goSortIdx (fs : List Fl) : List ℕ :=
  (goSortPairs (fs.zip (List.range fs.length))).map (fun p => p.2)

/-- Modelled from the spec's words (step 4.3.1): the strict key order of the
claimed ranking, in which a NaN fitness sorts as worse than any non-NaN
value and non-NaN values are ordered by float `<`. -/
def specKeyLT (u v : Fl) : Prop :=
  (u.isNaN = false ∧ v.isNaN = true) ∨ Fl.flt u v = true

/-- Modelled from the spec's words (step 4.3.1): the total order of the
claimed stable ascending ranking on (fitness, original index) pairs — by the
NaN-last key order, ties by original position. -/
def specPairLE (a b : Fl × ℕ) : Prop :=
  specKeyLT a.1 b.1 ∨ (a.1 = b.1 ∧ a.2 ≤ b.2)

instance : DecidableRel specKeyLT := fun u v => by
  unfold specKeyLT; infer_instance

instance : DecidableRel specPairLE := fun a b => by
  unfold specPairLE; infer_instance

/-- Modelled from the spec's words (step 4.3.1): the stable ascending
ranking of the fitnesses in which NaN sorts as worse than any non-NaN
value.  (On pairs with distinct original indices `specPairLE` is a linear
order, so this is the unique such ranking.) -/
def specStableRanking (fs : List Fl) : List ℕ :=
  (List.insertionSort specPairLE (fs.zip (List.range fs.length))).map (fun p => p.2)

/-! ## Protocol step (`Run`, the `FuncEvaluation` case) -/

/-- What the `FuncEvaluation` case of `CmaEsCholB.Run` does after recording
the result: dispatch the next sample by `sendTask(sentIdx, result)`, keep
waiting, or close the generation (reset the counters, compute the reported
best, then run `update` and `methodConverged` to pick the outgoing
operation); `badLogic` is the `panic("bad logic")` guard. -/
inductive RunAction where
  | dispatch : ℕ → RunAction
  | awaitMore : RunAction
  | finishGeneration : Fl → List Fl → RunAction
  | badLogic : RunAction
deriving DecidableEq, Repr

/-- The synchronization counters and generation buffers of `CmaEsCholB`
read by the `FuncEvaluation` case of `Run`. -/
structure RunState where
  pop : ℕ
  sentIdx : ℕ
  receivedIdx : ℕ
  fs : List Fl
  xs : List (List Fl)
  best : BestState
deriving DecidableEq, Repr

/-- Embeds the `optimize.FuncEvaluation` case of `CmaEsCholB.Run` (the
numerical `update` call and the choice between `MajorIteration` and
`MethodDone`, made inside the `finishGeneration` action, are embedded
separately by `update` and `afterUpdateOp`): `receivedIdx` is incremented
and the result recorded; then either the next sample is sent from slot
`sentIdx`, or the loop keeps waiting, or — when the received count reaches
the population — both counters are reset, the best is updated and reported,
and the generation buffers are NaN-poisoned. -/
def onFuncEvaluation (forget : Bool) (s : RunState) (id : ℕ) (f : Fl) :
    RunState × RunAction :=
  let s1 : RunState := { s with receivedIdx := s.receivedIdx + 1, fs := s.fs.set id f }
  if s1.sentIdx < s1.pop then
    ({ s1 with sentIdx := s1.sentIdx + 1 }, .dispatch s1.sentIdx)
  else if s1.receivedIdx < s1.pop then
    (s1, .awaitMore)
  else if s1.receivedIdx = s1.pop then
    let s2 : RunState := { s1 with receivedIdx := 0, sentIdx := 0 }
    let r := findBestAndUpdateTask forget s2.fs s2.xs s2.best
    ({ s2 with
        best := r.2
        fs := List.replicate s2.pop Fl.nan
        xs := s2.xs.map (fun row => row.set 0 Fl.nan) },
      .finishGeneration r.1.1 r.1.2)
  else (s1, .badLogic)

/-! ## Status and convergence (`Status`, `methodConverged`) -/

/-- The `optimize.Status` values reached by this method. -/
inductive GoStatus where
  | notTerminated : GoStatus
  | methodConverge : GoStatus
  | failure : GoStatus
deriving DecidableEq, Repr

/-- The `optimize.Operation` values the protocol can emit at a generation
boundary. -/
inductive TaskOp where
  | majorIteration : TaskOp
  | methodDone : TaskOp
deriving DecidableEq, Repr

/-- The numerical error of `update`: the triangular solve failed on a
singular factor. -/
inductive NumErr where
  | singularFactor : NumErr
deriving DecidableEq, Repr

/-- gonum's `mat.Cholesky.LogDet` on a factor with the given diagonal: twice
the sum of the logarithms of the diagonal of the Cholesky factor. -/
noncomputable def logDet (cholDiag : List ℝ) : ℝ :=
  2 * cholDiag.foldl (fun a d => a + Real.log d) 0

/-- The source's literal constant `-36.8413614879`, its comment: `ln(1e-16)`. -/
def lnEps : ℚ := -368413614879 / 10 ^ 10

/-- Embeds `CmaEsCholB.methodConverged`: NaN `StopLogDet` disables the
check; `0` selects the default threshold `dim * ln(1e-16)` (the source's
literal); otherwise the method has converged exactly when the log
determinant of the covariance is below the threshold.  The infinite cases
spell out the float comparison `LogDet < sd`. -/
noncomputable def methodConverged (sd : Fl) (dim : ℕ) (cholDiag : List ℝ) : GoStatus :=
  match sd with
  | .nan => .notTerminated
  | .pinf => .methodConverge
  | .ninf => .notTerminated
  | .num q =>
    let t : ℝ := if q = 0 then (dim : ℝ) * (lnEps : ℝ) else (q : ℝ)
    if logDet cholDiag < t then .methodConverge else .notTerminated

/-- Embeds `CmaEsCholB.Status`: a recorded `updateErr` yields
`optimize.Failure` carrying that error, otherwise the convergence check
decides. -/
noncomputable def statusOf (updateErr : Option NumErr) (sd : Fl) (dim : ℕ)
    (cholDiag : List ℝ) : GoStatus × Option NumErr :=
  match updateErr with
  | some e => (.failure, some e)
  | none => (methodConverged sd dim cholDiag, none)

/-- Embeds the operation choice after `update` in `Run` (lines after the
generation is complete): an update error emits `MethodDone`, then a
convergence result other than `NotTerminated` emits `MethodDone`, and
otherwise a `MajorIteration` is emitted. -/
def afterUpdateOp (err : Option NumErr) (conv : GoStatus) : TaskOp :=
  match err with
  | some _ => .methodDone
  | none => if conv ≠ GoStatus.notTerminated then .methodDone else .majorIteration

/-! ## Initialization (`Init`) -/

/-- The fatal configuration errors of `Init` (Go panics), in source order. -/
inductive InitErr where
  | nonpositiveDimension : InitErr
  | negativeTasks : InitErr
  | negativePopulation : InitErr
  | negativeInitStepSize : InitErr
  | badInitCholeskySize : InitErr
deriving DecidableEq, Repr

/-- The configuration fields of `CmaEsCholB` read by `Init`.  The initial
Cholesky factor only enters `Init` through its size check, so only its
dimension (when one is configured) is carried. -/
structure Config where
  initStepSize : ℚ
  population : ℤ
  initCholeskyDim : Option ℕ
deriving DecidableEq, Repr

/-- The default population size `4 + int(3 * math.Log(n))` of `Init`.  Go's
`int` conversion truncates toward zero; the operand is nonnegative for every
`n ≥ 1`, so this is the floor (the source notes the implicit floor). -/
noncomputable def defaultPop (dim : ℕ) : ℤ :=
  4 + ⌊3 * Real.log dim⌋

/-- Embeds `CmaEsCholB.Init` (its validation, population and step-size
derivation, and return value; the derived hyperparameters and buffers are
carried by `CmaParams`/`UpdState` below).  Returns the population size, the
inverse step size and the returned concurrency `min(tasks, pop)`, or the
first fatal error in source order. -/
noncomputable def initModel (cfg : Config) (dim tasks : ℤ) :
    Except InitErr (ℤ × ℚ × ℤ) :=
  if dim ≤ 0 then .error .nonpositiveDimension
  else if tasks < 0 then .error .negativeTasks
  else
    let popE : Except InitErr ℤ :=
      if cfg.population = 0 then .ok (defaultPop dim.toNat)
      else if cfg.population < 0 then .error .negativePopulation
      else .ok cfg.population
    match popE with
    | .error e => .error e
    | .ok pop =>
      let invSigmaE : Except InitErr ℚ :=
        if cfg.initStepSize = 0 then .ok (10 / 3)
        else if cfg.initStepSize < 0 then .error .negativeInitStepSize
        else .ok (1 / cfg.initStepSize)
      match invSigmaE with
      | .error e => .error e
      | .ok invSigma =>
        match cfg.initCholeskyDim with
        | some d =>
          if d = dim.toNat then .ok (pop, invSigma, min tasks pop)
          else .error .badInitCholeskySize
        | none => .ok (pop, invSigma, min tasks pop)

/-! ## The generation update (`update`)

The numerical state is carried over `ℝ` (the update uses square roots and an
exponential); the fitness buffer keeps the `Fl` carrier since `update` only
compares fitnesses.  List-level counterparts of the `floats` helpers used by
the source. -/

/-- `floats.Scale(c, dst)`: `dst[i] *= c`. -/
def scaleList (c : ℝ) (v : List ℝ) : List ℝ :=
  v.map (fun t => c * t)

/-- `floats.AddScaled(dst, c, src)`: `dst[i] += c * src[i]`. -/
def addScaled (dst : List ℝ) (c : ℝ) (src : List ℝ) : List ℝ :=
  List.zipWith (fun d s => d + c * s) dst src

/-- `floats.SubTo(dst, a, b)`: `dst[i] = a[i] - b[i]`. -/
def zipSub (a b : List ℝ) : List ℝ :=
  List.zipWith (fun u v => u - v) a b

/-- `floats.Norm(v, 2)`. -/
noncomputable def norm2 (v : List ℝ) : ℝ :=
  Real.sqrt (v.foldl (fun a t => a + t * t) 0)

/-- Entry `(i, j)` of a row-major list matrix. -/
def entry (M : List (List ℝ)) (i j : ℕ) : ℝ :=
  (M.getD i []).getD j 0

/-- Column gram product `(Mᵀ M) i j` of a row-major list matrix. -/
def gram (M : List (List ℝ)) (i j : ℕ) : ℝ :=
  (List.range M.length).foldl (fun a k => a + entry M k i * entry M k j) 0

/-- Models the external call `mat.Cholesky.Scale(f, orig)` at factor level:
the covariance is scaled by `f`, hence the factor by `√f`. -/
noncomputable def cholScale (f : ℝ) (U : List (List ℝ)) : List (List ℝ) :=
  U.map (List.map fun t => Real.sqrt f * t)

/-- Models the external call `mat.Cholesky.SymRankOne(chol, c, v)` by its
documented contract: the factor of the rank-one-updated covariance
`A + c·v·vᵀ`, chosen by a definite description (the source ignores the
call's `ok` result; no claim depends on this value). -/
noncomputable def symRankOne (U : List (List ℝ)) (c : ℝ) (v : List ℝ) : List (List ℝ) :=
  Classical.epsilon fun R =>
    R.length = U.length ∧
      ∀ i j, gram R i j = gram U i j + c * v.getD i 0 * v.getD j 0

/-- Go's `math.SmallestNonzeroFloat64`, substituted for a zero Cholesky
scale. -/
noncomputable def smallestNonzeroFloat64 : ℝ := 1 / 2 ^ 1074

/-- The loop of the triangular solve of `Uᵀ t = b` (forward substitution on
the lower triangle `Uᵀ`): `ys` is the solved head, `i` the current row.  A
zero diagonal entry — a singular factor — fails, as gonum's `SolveVec`
reports an error on a singular triangular matrix. -/
noncomputable def triSolveTAux (U : List (List ℝ)) : ℕ → List ℝ → List ℝ → Option (List ℝ)
  | _, ys, [] => some ys
  | i, ys, bi :: rest =>
    let d := entry U i i
    if d = 0 then none
    else
      let s := (ys.zip (List.range ys.length)).foldl
        (fun a t => a + entry U t.2 i * t.1) 0
      triSolveTAux U (i + 1) (ys ++ [(bi - s) / d]) rest

/-- Models `tmpVec.SolveVec(cma.chol.RawU().T(), diffVec)`: the triangular
solve `Uᵀ t = b`, failing on a singular factor. -/
noncomputable def triSolveT (U : List (List ℝ)) (b : List ℝ) : Option (List ℝ) :=
  triSolveTAux U 0 [] b

/-- The recombination loop of `update`: starting from the zeroed mean,
`floats.AddScaled(mean, w, xs.RawRowView(indexes[i]))` for each weight. -/
def recombine (dim : ℕ) (w : List ℝ) (idxs : List ℕ) (xs : List (List ℝ)) : List ℝ :=
  (w.zip idxs).foldl (fun acc wi => addScaled acc wi.1 (xs.getD wi.2 []))
    (List.replicate dim 0)

/-- The fixed algorithm parameters of `CmaEsCholB` set by `Init` and read by
`update` and the bound policy. -/
structure CmaParams where
  dim : ℕ
  weights : List ℝ
  muEff : ℝ
  cc : ℝ
  cs : ℝ
  c1 : ℝ
  cmu : ℝ
  ds : ℝ
  eChi : ℝ
  xmin : List ℝ
  xmax : List ℝ

/-- The adaptive state of `CmaEsCholB` mutated by `update`, together with
the generation buffers it reads.  The Cholesky factor is carried as its
row-major upper-triangular matrix. -/
structure UpdState where
  mean : List ℝ
  pc : List ℝ
  ps : List ℝ
  chol : List (List ℝ)
  invSigma : ℝ
  fs : List Fl
  xs : List (List ℝ)

/-- Embeds `CmaEsCholB.update`, in source order: rank the fitnesses, form
the new mean and bound it (the source passes `cma.mean` itself to
`ensureBounds`, so the midpoint loops read the coordinate being fixed as the
mean — the aliasing is reproduced by passing `mean1` twice), update `p_c`,
scale `p_s`, then the triangular solve: on failure the method returns the
error there, with the Cholesky factor and `invSigma` untouched.  On success
`p_s`, the factor (scale floored away from zero, one rank-one update from
`p_c`, one per elite sample) and `invSigma` are updated.  The outer `none`
is a non-terminating `ensureBounds` midpoint loop. -/
noncomputable def update (P : CmaParams) (fuel : ℕ) (s : UpdState) :
    Option (UpdState × Option NumErr) :=
  let idxs := goSortIdx s.fs
  let meanOld := s.mean
  let mean1 := recombine P.dim P.weights idxs s.xs
  match ensureBounds fuel P.xmin P.xmax mean1 mean1 with
  | none => none
  | some mean2 =>
    let meanDiff := zipSub mean2 meanOld
    let pc1 := addScaled (scaleList (1 - P.cc) s.pc)
      (Real.sqrt (P.cc * (2 - P.cc) * P.muEff) * s.invSigma) meanDiff
    let ps1 := scaleList (1 - P.cs) s.ps
    match triSolveT s.chol meanDiff with
    | none =>
      some ({ s with mean := mean2, pc := pc1, ps := ps1 }, some .singularFactor)
    | some tmp =>
      let ps2 := addScaled ps1 (Real.sqrt (P.cs * (2 - P.cs) * P.muEff) * s.invSigma) tmp
      let sc0 := 1 - P.c1 - P.cmu
      let sc := if sc0 = 0 then smallestNonzeroFloat64 else sc0
      let chol1 := symRankOne (cholScale sc s.chol) P.c1 pc1
      let chol2 := (P.weights.zip idxs).foldl
        (fun U wi => symRankOne U (P.cmu * wi.1 * s.invSigma)
          (zipSub (s.xs.getD wi.2 []) meanOld)) chol1
      let invSigma2 := s.invSigma / Real.exp (P.cs / P.ds * (norm2 ps2 / P.eChi - 1))
      some ({ s with
                mean := mean2
                pc := pc1
                ps := ps2
                chol := chol2
                invSigma := invSigma2 }, none)

/-! # Lemmas and claim theorems -/

/-! ## Float comparison lemmas -/

theorem flt_irrefl (a : Fl) : Fl.flt a a = false := by
  cases a <;> simp [Fl.flt]

theorem fle_refl_of_not_nan {a : Fl} (h : a.isNaN = false) : Fl.fle a a = true := by
  cases a <;> simp_all [Fl.fle, Fl.isNaN]

theorem flt_isNaN_left {a b : Fl} (h : Fl.flt a b = true) : a.isNaN = false := by
  cases a <;> simp_all [Fl.flt, Fl.isNaN]

theorem flt_isNaN_right {a b : Fl} (h : Fl.flt a b = true) : b.isNaN = false := by
  cases a <;> cases b <;> simp_all [Fl.flt, Fl.isNaN]

theorem fle_of_flt {a b : Fl} (h : Fl.flt a b = true) : Fl.fle a b = true := by
  cases a <;> cases b <;> simp_all [Fl.flt, Fl.fle]
  exact le_of_lt h

theorem fle_pinf_of_not_nan {a : Fl} (h : a.isNaN = false) : Fl.fle a .pinf = true := by
  cases a <;> simp_all [Fl.fle, Fl.isNaN]

theorem flt_trans {a b c : Fl} (h1 : Fl.flt a b = true) (h2 : Fl.flt b c = true) :
    Fl.flt a c = true := by
  cases a <;> cases b <;> cases c <;> simp_all [Fl.flt]
  exact lt_trans h1 h2

theorem flt_total_of_ne {a b : Fl} (ha : a.isNaN = false) (hb : b.isNaN = false)
    (hne : a ≠ b) : Fl.flt a b = true ∨ Fl.flt b a = true := by
  cases a <;> cases b <;> simp_all [Fl.flt, Fl.isNaN]

theorem eq_of_not_flt {a b : Fl} (ha : a.isNaN = false) (hb : b.isNaN = false)
    (h1 : Fl.flt a b = false) (h2 : Fl.flt b a = false) : a = b := by
  by_contra hne
  rcases flt_total_of_ne ha hb hne with h | h
  · rw [h] at h1; exact Bool.noConfusion h1
  · rw [h] at h2; exact Bool.noConfusion h2

/-! ## Midpoint iteration lemmas -/

theorem midIter_succ_shift {A : Type} [LinearOrderedField A] (m x : A) (k : ℕ) :
    midIter m x (k + 1) = midIter m ((x + m) / 2) k := by
  induction k with
  | zero => rfl
  | succ k ih =>
    show (midIter m x (k + 1) + m) / 2 = (midIter m ((x + m) / 2) k + m) / 2
    rw [ih]

theorem midIter_formula {A : Type} [LinearOrderedField A] (m x : A) (k : ℕ) :
    midIter m x k = m - (m - x) / 2 ^ k := by
  induction k with
  | zero => simp [midIter]
  | succ k ih =>
    have h2 : (2 : A) ^ k ≠ 0 := pow_ne_zero k two_ne_zero
    show (midIter m x k + m) / 2 = m - (m - x) / 2 ^ (k + 1)
    rw [ih, pow_succ]
    field_simp
    ring

theorem midIter_le_of_le {A : Type} [LinearOrderedField A] {m x : A} (h : x ≤ m) (k : ℕ) :
    midIter m x k ≤ m := by
  induction k with
  | zero => exact h
  | succ k ih =>
    show (midIter m x k + m) / 2 ≤ m
    linarith

theorem midIter_ge_of_ge {A : Type} [LinearOrderedField A] {m x : A} (h : m ≤ x) (k : ℕ) :
    m ≤ midIter m x k := by
  induction k with
  | zero => exact h
  | succ k ih =>
    show m ≤ (midIter m x k + m) / 2
    linarith

/-! ## Contraction loop lemmas -/

theorem contractUp_ge {A : Type} [LinearOrderedField A] {lo m : A} :
    ∀ {fuel : ℕ} {x y : A}, contractUp lo m fuel x = some y → ¬ y < lo := by
  intro fuel
  induction fuel with
  | zero =>
    intro x y h
    by_cases hx : x < lo
    · simp [contractUp, hx] at h
    · simp only [contractUp, if_neg hx, Option.some.injEq] at h
      subst h; exact hx
  | succ fuel ih =>
    intro x y h
    by_cases hx : x < lo
    · simp only [contractUp, if_pos hx] at h
      exact ih h
    · simp only [contractUp, if_neg hx, Option.some.injEq] at h
      subst h; exact hx

theorem contractDown_le {A : Type} [LinearOrderedField A] {hi m : A} :
    ∀ {fuel : ℕ} {x y : A}, contractDown hi m fuel x = some y → ¬ hi < y := by
  intro fuel
  induction fuel with
  | zero =>
    intro x y h
    by_cases hx : hi < x
    · simp [contractDown, hx] at h
    · simp only [contractDown, if_neg hx, Option.some.injEq] at h
      subst h; exact hx
  | succ fuel ih =>
    intro x y h
    by_cases hx : hi < x
    · simp only [contractDown, if_pos hx] at h
      exact ih h
    · simp only [contractDown, if_neg hx, Option.some.injEq] at h
      subst h; exact hx

theorem contractUp_none_of_lt {A : Type} [LinearOrderedField A] {lo m : A} :
    ∀ (fuel : ℕ) {x : A}, (∀ k, midIter m x k < lo) → contractUp lo m fuel x = none := by
  intro fuel
  induction fuel with
  | zero =>
    intro x hinv
    have h0 : x < lo := hinv 0
    simp [contractUp, h0]
  | succ fuel ih =>
    intro x hinv
    have h0 : x < lo := hinv 0
    simp only [contractUp, if_pos h0]
    exact ih fun k => by rw [← midIter_succ_shift]; exact hinv (k + 1)

theorem contractDown_none_of_gt {A : Type} [LinearOrderedField A] {hi m : A} :
    ∀ (fuel : ℕ) {x : A}, (∀ k, hi < midIter m x k) → contractDown hi m fuel x = none := by
  intro fuel
  induction fuel with
  | zero =>
    intro x hinv
    have h0 : hi < x := hinv 0
    simp [contractDown, h0]
  | succ fuel ih =>
    intro x hinv
    have h0 : hi < x := hinv 0
    simp only [contractDown, if_pos h0]
    exact ih fun k => by rw [← midIter_succ_shift]; exact hinv (k + 1)

theorem contractUp_some_of_iter {A : Type} [LinearOrderedField A] {lo m : A} :
    ∀ (k : ℕ) {x : A}, ¬ midIter m x k < lo → ∃ y, contractUp lo m k x = some y := by
  intro k
  induction k with
  | zero =>
    intro x h
    have h' : ¬ x < lo := by simpa [midIter] using h
    exact ⟨x, by simp [contractUp, if_neg h']⟩
  | succ k ih =>
    intro x h
    by_cases hx : x < lo
    · simp only [contractUp, if_pos hx]
      exact ih (by rw [← midIter_succ_shift]; exact h)
    · exact ⟨x, by simp [contractUp, if_neg hx]⟩

theorem contractDown_some_of_iter {A : Type} [LinearOrderedField A] {hi m : A} :
    ∀ (k : ℕ) {x : A}, ¬ hi < midIter m x k → ∃ y, contractDown hi m k x = some y := by
  intro k
  induction k with
  | zero =>
    intro x h
    have h' : ¬ hi < x := by simpa [midIter] using h
    exact ⟨x, by simp [contractDown, if_neg h']⟩
  | succ k ih =>
    intro x h
    by_cases hx : hi < x
    · simp only [contractDown, if_pos hx]
      exact ih (by rw [← midIter_succ_shift]; exact h)
    · exact ⟨x, by simp [contractDown, if_neg hx]⟩

theorem contractUp_eq_iter {A : Type} [LinearOrderedField A] {lo m : A} :
    ∀ {fuel : ℕ} {x y : A}, contractUp lo m fuel x = some y →
      ∃ k, k ≤ fuel ∧ y = midIter m x k ∧ ¬ y < lo ∧ ∀ j < k, midIter m x j < lo := by
  intro fuel
  induction fuel with
  | zero =>
    intro x y h
    by_cases hx : x < lo
    · simp [contractUp, hx] at h
    · simp only [contractUp, if_neg hx, Option.some.injEq] at h
      exact ⟨0, le_refl 0, h.symm ▸ rfl, h ▸ hx, by omega⟩
  | succ fuel ih =>
    intro x y h
    by_cases hx : x < lo
    · simp only [contractUp, if_pos hx] at h
      obtain ⟨k, hk, hy, hge, hlt⟩ := ih h
      refine ⟨k + 1, by omega, ?_, hge, ?_⟩
      · rw [midIter_succ_shift]; exact hy
      · intro j hj
        cases j with
        | zero => exact hx
        | succ j => rw [midIter_succ_shift]; exact hlt j (by omega)
    · simp only [contractUp, if_neg hx, Option.some.injEq] at h
      exact ⟨0, by omega, h.symm ▸ rfl, h ▸ hx, by omega⟩

theorem contractDown_eq_iter {A : Type} [LinearOrderedField A] {hi m : A} :
    ∀ {fuel : ℕ} {x y : A}, contractDown hi m fuel x = some y →
      ∃ k, k ≤ fuel ∧ y = midIter m x k ∧ ¬ hi < y ∧ ∀ j < k, hi < midIter m x j := by
  intro fuel
  induction fuel with
  | zero =>
    intro x y h
    by_cases hx : hi < x
    · simp [contractDown, hx] at h
    · simp only [contractDown, if_neg hx, Option.some.injEq] at h
      exact ⟨0, le_refl 0, h.symm ▸ rfl, h ▸ hx, by omega⟩
  | succ fuel ih =>
    intro x y h
    by_cases hx : hi < x
    · simp only [contractDown, if_pos hx] at h
      obtain ⟨k, hk, hy, hge, hlt⟩ := ih h
      refine ⟨k + 1, by omega, ?_, hge, ?_⟩
      · rw [midIter_succ_shift]; exact hy
      · intro j hj
        cases j with
        | zero => exact hx
        | succ j => rw [midIter_succ_shift]; exact hlt j (by omega)
    · simp only [contractDown, if_neg hx, Option.some.injEq] at h
      exact ⟨0, by omega, h.symm ▸ rfl, h ▸ hx, by omega⟩

theorem midIter_lt_of_le {A : Type} [LinearOrderedField A] {lo m x : A}
    (hx : x < lo) (hm : m ≤ lo) : ∀ k, midIter m x k < lo := by
  intro k
  induction k with
  | zero => exact hx
  | succ k ih =>
    show (midIter m x k + m) / 2 < lo
    linarith

theorem midIter_gt_of_ge {A : Type} [LinearOrderedField A] {hi m x : A}
    (hx : hi < x) (hm : hi ≤ m) : ∀ k, hi < midIter m x k := by
  intro k
  induction k with
  | zero => exact hx
  | succ k ih =>
    show hi < (midIter m x k + m) / 2
    linarith

theorem exists_iter_ge {A : Type} [LinearOrderedField A] [Archimedean A] {lo m x : A}
    (hx : x < lo) (hm : lo < m) : ∃ k, ¬ midIter m x k < lo := by
  obtain ⟨k, hk⟩ := pow_unbounded_of_one_lt ((m - x) / (m - lo)) (one_lt_two (α := A))
  refine ⟨k, not_lt.mpr ?_⟩
  rw [midIter_formula]
  have h2k : (0 : A) < 2 ^ k := by positivity
  have hml : (0 : A) < m - lo := by linarith
  have h1 : m - x < 2 ^ k * (m - lo) := (div_lt_iff₀ hml).mp hk
  have h2 : (m - x) / 2 ^ k < m - lo := by
    rw [div_lt_iff₀ h2k]; linarith
  linarith

theorem exists_iter_le {A : Type} [LinearOrderedField A] [Archimedean A] {hi m x : A}
    (hx : hi < x) (hm : m < hi) : ∃ k, ¬ hi < midIter m x k := by
  obtain ⟨k, hk⟩ := pow_unbounded_of_one_lt ((x - m) / (hi - m)) (one_lt_two (α := A))
  refine ⟨k, not_lt.mpr ?_⟩
  rw [midIter_formula]
  have h2k : (0 : A) < 2 ^ k := by positivity
  have hml : (0 : A) < hi - m := by linarith
  have h1 : x - m < 2 ^ k * (hi - m) := (div_lt_iff₀ hml).mp hk
  have h2 : (x - m) / 2 ^ k < hi - m := by
    rw [div_lt_iff₀ h2k]; linarith
  have h3 : (m - x) / 2 ^ k = -((x - m) / 2 ^ k) := by ring
  rw [h3]
  linarith

/-! ## Pointwise characterization of the fixing loop -/

theorem fixAll_some {A : Type} [LinearOrderedField A] {nB n : ℕ} {xmin xmax mean : List A}
    {fuel : ℕ} :
    ∀ {x : List A} {i : ℕ} {y : List A}, fixAll nB n xmin xmax mean fuel i x = some y →
      y.length = x.length ∧
      ∀ j, j < x.length →
        fixCoord nB n xmin[i + j]? xmax[i + j]? (mean.getD (i + j) 0) fuel (x.getD j 0) =
          some (y.getD j 0) := by
  intro x
  induction x with
  | nil =>
    intro i y h
    simp only [fixAll, Option.some.injEq] at h
    subst h
    exact ⟨rfl, by intro j hj; simp at hj⟩
  | cons xi rest ih =>
    intro i y h
    simp only [fixAll, bind, Option.bind_eq_some, Option.some.injEq, pure] at h
    obtain ⟨y0, h0, ys, hrest, hy⟩ := h
    obtain ⟨hlen, hpt⟩ := ih hrest
    subst hy
    refine ⟨by simp [hlen], ?_⟩
    intro j hj
    cases j with
    | zero => simpa using h0
    | succ j =>
      have harith : i + 1 + j = i + (j + 1) := by omega
      have := hpt j (by simpa using Nat.lt_of_succ_lt_succ hj)
      rw [harith] at this
      simpa using this

theorem fixAll_isSome {A : Type} [LinearOrderedField A] {nB n : ℕ} {xmin xmax mean : List A}
    {fuel : ℕ} :
    ∀ {x : List A} {i : ℕ},
      (∀ j, j < x.length →
        (fixCoord nB n xmin[i + j]? xmax[i + j]? (mean.getD (i + j) 0) fuel
          (x.getD j 0)).isSome) →
      ∃ y, fixAll nB n xmin xmax mean fuel i x = some y := by
  intro x
  induction x with
  | nil => intro i _; exact ⟨[], rfl⟩
  | cons xi rest ih =>
    intro i hall
    have h0 := hall 0 (by simp)
    rw [Option.isSome_iff_exists] at h0
    obtain ⟨y0, hy0⟩ := h0
    obtain ⟨ys, hys⟩ := ih (fun j hj => by
      have harith : i + 1 + j = i + (j + 1) := by omega
      have := hall (j + 1) (by simpa using Nat.succ_lt_succ hj)
      rw [harith]
      simpa using this)
    refine ⟨y0 :: ys, ?_⟩
    simp only [fixAll, bind, Option.bind_eq_some, Option.some.injEq, pure]
    exact ⟨y0, by simpa using hy0, ys, hys, rfl⟩

/-! ## C3: termination of the midpoint-contraction loops -/

/-- **C3 counterexample**: the claim "the midpoint-contraction loop of the
bound-enforcement step terminates for every input" is false on the code.  At
the concrete input where `ensureBounds` is applied to the mean itself (as
`update` does), with the single coordinate `-1` strictly below the lower
bound `0`, the loop body leaves the coordinate unchanged
(`(-1 + -1) / 2 = -1`) and the uncapped loop never exits: no fuel makes the
embedded loop return. -/
theorem C3_counterexample : ¬ ensureBoundsTerminates [0] [] [-1] [-1] := by
  rintro ⟨fuel, y, h⟩
  have h' : fixAll 1 1 [(0 : ℚ)] [] [-1] fuel 0 [-1] = some y := h
  have hc : contractUp (0 : ℚ) (-1) fuel (-1) = none :=
    contractUp_none_of_lt fuel (midIter_lt_of_le (by norm_num) (by norm_num))
  simp only [fixAll, fixCoord, bind] at h'
  norm_num at h'
  rw [hc] at h'
  simp at h'

/-- **C3 (amended)**: the midpoint-contraction loops carry no iteration cap.
When the coordinate violates the bound and the mean coordinate strictly
satisfies it, each midpoint step strictly decreases the distance to the
violated bound and the loop terminates (some fuel suffices); but when the
mean coordinate lies on or beyond the violated bound — in particular when
`ensureBounds` is applied to the mean vector itself, so the coordinate and
the mean coordinate coincide — the loop never terminates. -/
theorem C3_amended (lo hi m x : ℚ) :
    (x < lo → lo < m →
      (∀ k, lo - midIter m x (k + 1) < lo - midIter m x k) ∧
      ∃ fuel y, contractUp lo m fuel x = some y) ∧
    (x < lo → m ≤ lo → ∀ fuel, contractUp lo m fuel x = none) ∧
    (hi < x → m < hi →
      (∀ k, midIter m x (k + 1) - hi < midIter m x k - hi) ∧
      ∃ fuel y, contractDown hi m fuel x = some y) ∧
    (hi < x → hi ≤ m → ∀ fuel, contractDown hi m fuel x = none) := by
  refine ⟨fun hx hm => ⟨fun k => ?_, ?_⟩, fun hx hm fuel => ?_,
    fun hx hm => ⟨fun k => ?_, ?_⟩, fun hx hm fuel => ?_⟩
  · have ha : (0 : ℚ) < m - x := by linarith
    have h2k : (0 : ℚ) < 2 ^ k := by positivity
    have hpow : (2 : ℚ) ^ k < 2 ^ (k + 1) := by
      have := pow_lt_pow_right₀ (a := (2 : ℚ)) one_lt_two (Nat.lt_succ_self k)
      simpa using this
    have := div_lt_div_of_pos_left ha h2k hpow
    rw [midIter_formula m x (k + 1), midIter_formula m x k]
    linarith
  · obtain ⟨k, hk⟩ := exists_iter_ge hx hm
    obtain ⟨y, hy⟩ := contractUp_some_of_iter k hk
    exact ⟨k, y, hy⟩
  · exact contractUp_none_of_lt fuel (midIter_lt_of_le hx hm)
  · have ha : (0 : ℚ) < x - m := by linarith
    have h2k : (0 : ℚ) < 2 ^ k := by positivity
    have hpow : (2 : ℚ) ^ k < 2 ^ (k + 1) := by
      have := pow_lt_pow_right₀ (a := (2 : ℚ)) one_lt_two (Nat.lt_succ_self k)
      simpa using this
    have hlt := div_lt_div_of_pos_left ha h2k hpow
    have e1 : midIter m x (k + 1) = m - (m - x) / 2 ^ (k + 1) := midIter_formula m x (k + 1)
    have e2 : midIter m x k = m - (m - x) / 2 ^ k := midIter_formula m x k
    have e3 : (m - x) / 2 ^ (k + 1) = -((x - m) / 2 ^ (k + 1)) := by ring
    have e4 : (m - x) / 2 ^ k = -((x - m) / 2 ^ k) := by ring
    rw [e1, e2, e3, e4]
    linarith
  · obtain ⟨k, hk⟩ := exists_iter_le hx hm
    obtain ⟨y, hy⟩ := contractDown_some_of_iter k hk
    exact ⟨k, y, hy⟩
  · exact contractDown_none_of_gt fuel (midIter_gt_of_ge hx hm)

/-- Witness for `C3_amended` at concrete inputs: with bound `0`, mean `1`
and coordinate `-1` the first midpoint step strictly shrinks the distance to
the bound; with mean `0` on the bound the loop makes no progress and `none`
is returned for the concrete fuel `5`. -/
theorem C3_amended_witness :
    ((-1 : ℚ) < 0 ∧ (0 : ℚ) < 1) ∧
    (0 - midIter (1 : ℚ) (-1) (0 + 1) < 0 - midIter (1 : ℚ) (-1) 0) ∧
    contractUp (0 : ℚ) 0 5 (-1) = none := by
  refine ⟨⟨by norm_num, by norm_num⟩, ?_, ?_⟩
  · exact ((C3_amended 0 0 1 (-1)).1 (by norm_num) (by norm_num)).1 0
  · exact (C3_amended 0 0 0 (-1)).2.1 (by norm_num) (by norm_num) 5

theorem getq_some {A : Type} [LinearOrderedField A] {l : List A} {i : ℕ}
    (h : i < l.length) : l[i]? = some (l.getD i 0) := by
  rw [List.getElem?_eq_getElem h, List.getD_eq_getElem l 0 h]

theorem getq_none {A : Type} [LinearOrderedField A] {l : List A} {i : ℕ}
    (h : l.length ≤ i) : l[i]? = none :=
  List.getElem?_eq_none h

/-- With `nBounded < n` no midpoint loop runs: the fix of one coordinate is
the sequential pair of clamps, for any fuel. -/
theorem fixCoord_clamp_eval {A : Type} [LinearOrderedField A] {nB n : ℕ} (h : nB < n)
    (lo? hi? : Option A) (m : A) (fuel : ℕ) (x : A) :
    fixCoord nB n lo? hi? m fuel x =
      some (
        let x1 := match lo? with
          | some lo => if x < lo then lo else x
          | none => x
        match hi? with
        | some hi => if hi < x1 then hi else x1
        | none => x1) := by
  cases lo? with
  | none =>
    cases hi? with
    | none => rfl
    | some hi =>
      simp only [fixCoord, Option.some_bind, if_pos h]
      split <;> rfl
  | some lo =>
    cases hi? with
    | none =>
      simp only [fixCoord, if_pos h]
      split <;> rfl
    | some hi =>
      simp only [fixCoord, if_pos h]
      split <;> (simp only [Option.some_bind]; split <;> rfl)


/-- `fixCoord` with both bounds covering the coordinate, as plain `if`s. -/
theorem fixCoord_ss {A : Type} [LinearOrderedField A] (nB n : ℕ) (lo hi m : A)
    (fuel : ℕ) (x : A) :
    fixCoord nB n (some lo) (some hi) m fuel x =
      (if x < lo then (if nB < n then some lo else contractUp lo m fuel x)
        else some x).bind fun x1 =>
        if hi < x1 then (if nB < n then some hi else contractDown hi m fuel x1)
        else some x1 := rfl

/-- `fixCoord` with only the lower bound covering the coordinate. -/
theorem fixCoord_sn {A : Type} [LinearOrderedField A] (nB n : ℕ) (lo m : A)
    (fuel : ℕ) (x : A) :
    fixCoord nB n (some lo) none m fuel x =
      if x < lo then (if nB < n then some lo else contractUp lo m fuel x)
      else some x := by
  show (if x < lo then (if nB < n then some lo else contractUp lo m fuel x)
    else some x).bind (fun x1 => some x1) = _
  split <;> (try split) <;> simp

/-- `fixCoord` with only the upper bound covering the coordinate. -/
theorem fixCoord_ns {A : Type} [LinearOrderedField A] (nB n : ℕ) (hi m : A)
    (fuel : ℕ) (x : A) :
    fixCoord nB n none (some hi) m fuel x =
      if hi < x then (if nB < n then some hi else contractDown hi m fuel x)
      else some x := rfl

/-- `fixCoord` with neither bound covering the coordinate. -/
theorem fixCoord_nn {A : Type} [LinearOrderedField A] (nB n : ℕ) (m : A)
    (fuel : ℕ) (x : A) :
    fixCoord nB n none none m fuel x = some x := rfl

/-! ## C2: the two bound-enforcement paths -/

/-- **C2**: for a candidate vector with prefix bound vectors whose mean lies
within the bounds (the spec's standing invariant on the mean), the
bound-enforcement step first counts the out-of-bound coordinates as
`nBounded`; if `nBounded < n` it sets each coordinate strictly below
`Xmin[i]` to exactly `Xmin[i]` and each strictly above `Xmax[i]` to exactly
`Xmax[i]`, leaving the others unchanged (for any fuel — no midpoint loop
runs); if `nBounded = n` each violating coordinate is instead replaced by
the midpoint iteration toward the mean, stopped at the first iterate
satisfying the violated bound, and the others are unchanged. -/
theorem C2_ensureBounds_policy (xmin xmax mean x : List ℚ)
    (hml : ∀ i, i < x.length → i < xmin.length → xmin.getD i 0 ≤ mean.getD i 0)
    (hmh : ∀ i, i < x.length → i < xmax.length → mean.getD i 0 ≤ xmax.getD i 0) :
    (nBounded xmin xmax x < x.length →
      ∀ fuel, ∃ y, ensureBounds fuel xmin xmax mean x = some y ∧
        ∀ i, i < x.length →
          ((i < xmin.length ∧ x.getD i 0 < xmin.getD i 0) → y.getD i 0 = xmin.getD i 0) ∧
          ((i < xmax.length ∧ xmax.getD i 0 < x.getD i 0) → y.getD i 0 = xmax.getD i 0) ∧
          (¬ (i < xmin.length ∧ x.getD i 0 < xmin.getD i 0) →
            ¬ (i < xmax.length ∧ xmax.getD i 0 < x.getD i 0) → y.getD i 0 = x.getD i 0)) ∧
    (nBounded xmin xmax x = x.length →
      ∀ fuel y, ensureBounds fuel xmin xmax mean x = some y →
        ∀ i, i < x.length →
          ((i < xmin.length ∧ x.getD i 0 < xmin.getD i 0) →
            contractUp (xmin.getD i 0) (mean.getD i 0) fuel (x.getD i 0) =
              some (y.getD i 0) ∧
            xmin.getD i 0 ≤ y.getD i 0 ∧
            ∃ k, y.getD i 0 = midIter (mean.getD i 0) (x.getD i 0) k ∧
              ∀ j, j < k → midIter (mean.getD i 0) (x.getD i 0) j < xmin.getD i 0) ∧
          ((i < xmax.length ∧ xmax.getD i 0 < x.getD i 0) →
            contractDown (xmax.getD i 0) (mean.getD i 0) fuel (x.getD i 0) =
              some (y.getD i 0) ∧
            y.getD i 0 ≤ xmax.getD i 0 ∧
            ∃ k, y.getD i 0 = midIter (mean.getD i 0) (x.getD i 0) k ∧
              ∀ j, j < k → xmax.getD i 0 < midIter (mean.getD i 0) (x.getD i 0) j) ∧
          (¬ (i < xmin.length ∧ x.getD i 0 < xmin.getD i 0) →
            ¬ (i < xmax.length ∧ xmax.getD i 0 < x.getD i 0) → y.getD i 0 = x.getD i 0)) := by
  constructor
  · -- nBounded < n: the clamping path
    intro hlt fuel
    obtain ⟨y, hy⟩ := fixAll_isSome (x := x) (i := 0) (fun j hj => by
      rw [fixCoord_clamp_eval hlt]; rfl)
    refine ⟨y, hy, ?_⟩
    obtain ⟨hlen, hpt⟩ := fixAll_some hy
    intro i hi
    have hfix := hpt i hi
    rw [Nat.zero_add] at hfix
    refine ⟨?_, ?_, ?_⟩
    · rintro ⟨hc1, hv⟩
      by_cases hc2 : i < xmax.length
      · have hwf : ¬ xmax.getD i 0 < xmin.getD i 0 :=
          not_lt.mpr (le_trans (hml i hi hc1) (hmh i hi hc2))
        rw [getq_some hc1, getq_some hc2, fixCoord_ss, if_pos hv, if_pos hlt,
          Option.some_bind, if_neg hwf, Option.some.injEq] at hfix
        exact hfix.symm
      · rw [getq_some hc1, getq_none (le_of_not_lt hc2), fixCoord_sn, if_pos hv,
          if_pos hlt, Option.some.injEq] at hfix
        exact hfix.symm
    · rintro ⟨hc2, hv⟩
      by_cases hc1 : i < xmin.length
      · have hnv : ¬ x.getD i 0 < xmin.getD i 0 :=
          not_lt.mpr (le_trans (le_trans (hml i hi hc1) (hmh i hi hc2)) (le_of_lt hv))
        rw [getq_some hc1, getq_some hc2, fixCoord_ss, if_neg hnv, Option.some_bind,
          if_pos hv, if_pos hlt, Option.some.injEq] at hfix
        exact hfix.symm
      · rw [getq_none (le_of_not_lt hc1), getq_some hc2, fixCoord_ns, if_pos hv,
          if_pos hlt, Option.some.injEq] at hfix
        exact hfix.symm
    · intro hn1 hn2
      by_cases hc1 : i < xmin.length <;> by_cases hc2 : i < xmax.length
      · rw [getq_some hc1, getq_some hc2, fixCoord_ss,
          if_neg (fun hv => hn1 ⟨hc1, hv⟩), Option.some_bind,
          if_neg (fun hv => hn2 ⟨hc2, hv⟩), Option.some.injEq] at hfix
        exact hfix.symm
      · rw [getq_some hc1, getq_none (le_of_not_lt hc2), fixCoord_sn,
          if_neg (fun hv => hn1 ⟨hc1, hv⟩), Option.some.injEq] at hfix
        exact hfix.symm
      · rw [getq_none (le_of_not_lt hc1), getq_some hc2, fixCoord_ns,
          if_neg (fun hv => hn2 ⟨hc2, hv⟩), Option.some.injEq] at hfix
        exact hfix.symm
      · rw [getq_none (le_of_not_lt hc1), getq_none (le_of_not_lt hc2), fixCoord_nn,
          Option.some.injEq] at hfix
        exact hfix.symm
  · -- nBounded = n: the midpoint-contraction path
    intro heq fuel y hy i hi
    have hnlt : ¬ nBounded xmin xmax x < x.length := by omega
    obtain ⟨hlen, hpt⟩ := fixAll_some hy
    have hfix := hpt i hi
    rw [Nat.zero_add] at hfix
    refine ⟨?_, ?_, ?_⟩
    · rintro ⟨hc1, hv⟩
      have hxm : x.getD i 0 ≤ mean.getD i 0 := le_trans (le_of_lt hv) (hml i hi hc1)
      by_cases hc2 : i < xmax.length
      · rw [getq_some hc1, getq_some hc2, fixCoord_ss, if_pos hv, if_neg hnlt,
          Option.bind_eq_some] at hfix
        obtain ⟨x1, hx1, hst2⟩ := hfix
        obtain ⟨k, hk, hky, hge, hlt'⟩ := contractUp_eq_iter hx1
        have hx1m : x1 ≤ mean.getD i 0 := hky ▸ midIter_le_of_le hxm k
        have hnh : ¬ xmax.getD i 0 < x1 := not_lt.mpr (le_trans hx1m (hmh i hi hc2))
        rw [if_neg hnh, Option.some.injEq] at hst2
        subst hst2
        exact ⟨hx1, not_lt.mp hge, k, hky, hlt'⟩
      · rw [getq_some hc1, getq_none (le_of_not_lt hc2), fixCoord_sn, if_pos hv,
          if_neg hnlt] at hfix
        obtain ⟨k, hk, hky, hge, hlt'⟩ := contractUp_eq_iter hfix
        exact ⟨hfix, not_lt.mp hge, k, hky, hlt'⟩
    · rintro ⟨hc2, hv⟩
      by_cases hc1 : i < xmin.length
      · have hnv : ¬ x.getD i 0 < xmin.getD i 0 :=
          not_lt.mpr (le_trans (le_trans (hml i hi hc1) (hmh i hi hc2)) (le_of_lt hv))
        rw [getq_some hc1, getq_some hc2, fixCoord_ss, if_neg hnv, Option.some_bind,
          if_pos hv, if_neg hnlt] at hfix
        obtain ⟨k, hk, hky, hge, hlt'⟩ := contractDown_eq_iter hfix
        exact ⟨hfix, not_lt.mp hge, k, hky, hlt'⟩
      · rw [getq_none (le_of_not_lt hc1), getq_some hc2, fixCoord_ns, if_pos hv,
          if_neg hnlt] at hfix
        obtain ⟨k, hk, hky, hge, hlt'⟩ := contractDown_eq_iter hfix
        exact ⟨hfix, not_lt.mp hge, k, hky, hlt'⟩
    · intro hn1 hn2
      by_cases hc1 : i < xmin.length <;> by_cases hc2 : i < xmax.length
      · rw [getq_some hc1, getq_some hc2, fixCoord_ss,
          if_neg (fun hv => hn1 ⟨hc1, hv⟩), Option.some_bind,
          if_neg (fun hv => hn2 ⟨hc2, hv⟩), Option.some.injEq] at hfix
        exact hfix.symm
      · rw [getq_some hc1, getq_none (le_of_not_lt hc2), fixCoord_sn,
          if_neg (fun hv => hn1 ⟨hc1, hv⟩), Option.some.injEq] at hfix
        exact hfix.symm
      · rw [getq_none (le_of_not_lt hc1), getq_some hc2, fixCoord_ns,
          if_neg (fun hv => hn2 ⟨hc2, hv⟩), Option.some.injEq] at hfix
        exact hfix.symm
      · rw [getq_none (le_of_not_lt hc1), getq_none (le_of_not_lt hc2), fixCoord_nn,
          Option.some.injEq] at hfix
        exact hfix.symm

/-- With `nBounded = n`, a coordinate strictly below a covered lower bound is
fixed by the lower midpoint loop (the upper branch cannot fire afterwards
when the mean is below any covered upper bound). -/
theorem fixCoord_contract_lower {A : Type} [LinearOrderedField A] {nB n : ℕ}
    (hnlt : ¬ nB < n) {lo m x yi : A} {fuel : ℕ} (hi? : Option A)
    (hv : x < lo) (hxm : x ≤ m) (hhi : ∀ hi, hi? = some hi → m ≤ hi)
    (hfix : fixCoord nB n (some lo) hi? m fuel x = some yi) :
    contractUp lo m fuel x = some yi := by
  cases hi? with
  | none =>
    rw [fixCoord_sn, if_pos hv, if_neg hnlt] at hfix
    exact hfix
  | some hi =>
    rw [fixCoord_ss, if_pos hv, if_neg hnlt, Option.bind_eq_some] at hfix
    obtain ⟨x1, hx1, hst2⟩ := hfix
    obtain ⟨k, _, hky, _, _⟩ := contractUp_eq_iter hx1
    have hx1m : x1 ≤ m := hky ▸ midIter_le_of_le hxm k
    have hnh : ¬ hi < x1 := not_lt.mpr (le_trans hx1m (hhi hi rfl))
    rw [if_neg hnh, Option.some.injEq] at hst2
    rw [hst2] at hx1
    exact hx1

/-- With `nBounded = n`, a coordinate strictly above a covered upper bound is
fixed by the upper midpoint loop (the lower branch does not fire when the
mean is above any covered lower bound). -/
theorem fixCoord_contract_upper {A : Type} [LinearOrderedField A] {nB n : ℕ}
    (hnlt : ¬ nB < n) {hi m x yi : A} {fuel : ℕ} (lo? : Option A)
    (hv : hi < x) (hlo : ∀ lo, lo? = some lo → lo ≤ m) (hmle : m ≤ hi)
    (hfix : fixCoord nB n lo? (some hi) m fuel x = some yi) :
    contractDown hi m fuel x = some yi := by
  cases lo? with
  | none =>
    rw [fixCoord_ns, if_pos hv, if_neg hnlt] at hfix
    exact hfix
  | some lo =>
    have hnv : ¬ x < lo := not_lt.mpr (le_trans (le_trans (hlo lo rfl) hmle) (le_of_lt hv))
    rw [fixCoord_ss, if_neg hnv, Option.some_bind, if_pos hv, if_neg hnlt] at hfix
    exact hfix

/-- A coordinate that violates neither strict comparison passes through the
fixing loop unchanged, for any count and fuel. -/
theorem fixCoord_unchanged {A : Type} [LinearOrderedField A] {nB n : ℕ}
    {m x yi : A} {fuel : ℕ} (lo? hi? : Option A)
    (hnv1 : ∀ lo, lo? = some lo → ¬ x < lo) (hnv2 : ∀ hi, hi? = some hi → ¬ hi < x)
    (hfix : fixCoord nB n lo? hi? m fuel x = some yi) : yi = x := by
  cases lo? with
  | none =>
    cases hi? with
    | none =>
      rw [fixCoord_nn, Option.some.injEq] at hfix
      exact hfix.symm
    | some hi =>
      rw [fixCoord_ns, if_neg (hnv2 hi rfl), Option.some.injEq] at hfix
      exact hfix.symm
  | some lo =>
    cases hi? with
    | none =>
      rw [fixCoord_sn, if_neg (hnv1 lo rfl), Option.some.injEq] at hfix
      exact hfix.symm
    | some hi =>
      rw [fixCoord_ss, if_neg (hnv1 lo rfl), Option.some_bind, if_neg (hnv2 hi rfl),
        Option.some.injEq] at hfix
      exact hfix.symm

/-! ## C10: coordinates exactly on a bound -/

/-- **C10**: the `nBounded` count uses non-strict comparisons, so a
coordinate exactly equal to a covered bound is counted as bounded, yet the
fixing pass uses strict comparisons and never modifies it; consequently, in
every vector where one coordinate lies exactly on a bound and all remaining
coordinates lie strictly outside their bounds, the count equals the
dimension and the strictly-violating coordinates take the
midpoint-contraction path instead of being clamped. -/
theorem C10_on_bound_counted_never_clamped :
    (∀ (xmin xmax mean x : List ℚ) (i : ℕ), i < x.length →
      (i < xmin.length → xmin.getD i 0 ≤ x.getD i 0) →
      (i < xmax.length → x.getD i 0 ≤ xmax.getD i 0) →
      ((i < xmin.length ∧ x.getD i 0 = xmin.getD i 0) ∨
        (i < xmax.length ∧ x.getD i 0 = xmax.getD i 0)) →
      boundedAt xmin xmax x i = true ∧
      ∀ fuel y, ensureBounds fuel xmin xmax mean x = some y →
        y.getD i 0 = x.getD i 0) ∧
    (∀ (xmin xmax mean x : List ℚ) (i0 : ℕ),
      (∀ i, i < x.length → i < xmin.length → xmin.getD i 0 ≤ mean.getD i 0) →
      (∀ i, i < x.length → i < xmax.length → mean.getD i 0 ≤ xmax.getD i 0) →
      i0 < x.length →
      (i0 < xmin.length → xmin.getD i0 0 ≤ x.getD i0 0) →
      (i0 < xmax.length → x.getD i0 0 ≤ xmax.getD i0 0) →
      ((i0 < xmin.length ∧ x.getD i0 0 = xmin.getD i0 0) ∨
        (i0 < xmax.length ∧ x.getD i0 0 = xmax.getD i0 0)) →
      (∀ i, i < x.length → i ≠ i0 →
        (i < xmin.length ∧ x.getD i 0 < xmin.getD i 0) ∨
        (i < xmax.length ∧ xmax.getD i 0 < x.getD i 0)) →
      nBounded xmin xmax x = x.length ∧
      ∀ fuel y, ensureBounds fuel xmin xmax mean x = some y →
        ∀ i, i < x.length → i ≠ i0 →
          ((i < xmin.length ∧ x.getD i 0 < xmin.getD i 0) →
            contractUp (xmin.getD i 0) (mean.getD i 0) fuel (x.getD i 0) =
              some (y.getD i 0)) ∧
          ((i < xmax.length ∧ xmax.getD i 0 < x.getD i 0) →
            contractDown (xmax.getD i 0) (mean.getD i 0) fuel (x.getD i 0) =
              some (y.getD i 0))) := by
  have hcnt : ∀ (xmin xmax x : List ℚ) (i : ℕ),
      ((i < xmin.length ∧ x.getD i 0 ≤ xmin.getD i 0) ∨
        (i < xmax.length ∧ xmax.getD i 0 ≤ x.getD i 0)) →
      boundedAt xmin xmax x i = true := by
    intro xmin xmax x i h
    unfold boundedAt
    rw [Bool.or_eq_true, Bool.and_eq_true, Bool.and_eq_true]
    rcases h with ⟨hc, he⟩ | ⟨hc, he⟩
    · exact Or.inl ⟨decide_eq_true hc, decide_eq_true he⟩
    · exact Or.inr ⟨decide_eq_true hc, decide_eq_true he⟩
  constructor
  · intro xmin xmax mean x i hi hs1 hs2 hon
    constructor
    · rcases hon with ⟨hc, he⟩ | ⟨hc, he⟩
      · exact hcnt xmin xmax x i (Or.inl ⟨hc, le_of_eq he⟩)
      · exact hcnt xmin xmax x i (Or.inr ⟨hc, le_of_eq he.symm⟩)
    · intro fuel y hy
      obtain ⟨hlen, hpt⟩ := fixAll_some hy
      have hfix := hpt i hi
      rw [Nat.zero_add] at hfix
      refine fixCoord_unchanged _ _ ?_ ?_ hfix
      · intro lo hlo
        by_cases hc1 : i < xmin.length
        · rw [getq_some hc1, Option.some.injEq] at hlo
          rw [← hlo]
          exact not_lt.mpr (hs1 hc1)
        · rw [getq_none (le_of_not_lt hc1)] at hlo
          exact Option.noConfusion hlo
      · intro hi' hhi
        by_cases hc2 : i < xmax.length
        · rw [getq_some hc2, Option.some.injEq] at hhi
          rw [← hhi]
          exact not_lt.mpr (hs2 hc2)
        · rw [getq_none (le_of_not_lt hc2)] at hhi
          exact Option.noConfusion hhi
  · intro xmin xmax mean x i0 hml hmh hi0 hs1 hs2 hon hviol
    have hcount : nBounded xmin xmax x = x.length := by
      unfold nBounded
      rw [List.filter_eq_self.mpr, List.length_range]
      intro a ha
      rw [List.mem_range] at ha
      by_cases hai : a = i0
      · subst hai
        rcases hon with ⟨hc, he⟩ | ⟨hc, he⟩
        · exact hcnt xmin xmax x a (Or.inl ⟨hc, le_of_eq he⟩)
        · exact hcnt xmin xmax x a (Or.inr ⟨hc, le_of_eq he.symm⟩)
      · rcases hviol a ha hai with ⟨hc, hv⟩ | ⟨hc, hv⟩
        · exact hcnt xmin xmax x a (Or.inl ⟨hc, le_of_lt hv⟩)
        · exact hcnt xmin xmax x a (Or.inr ⟨hc, le_of_lt hv⟩)
    refine ⟨hcount, ?_⟩
    intro fuel y hy i hi hne
    have hnlt : ¬ nBounded xmin xmax x < x.length := by omega
    obtain ⟨hlen, hpt⟩ := fixAll_some hy
    have hfix := hpt i hi
    rw [Nat.zero_add] at hfix
    constructor
    · rintro ⟨hc1, hv⟩
      rw [getq_some hc1] at hfix
      refine fixCoord_contract_lower hnlt _ hv (le_trans (le_of_lt hv) (hml i hi hc1))
        ?_ hfix
      intro hb hhb
      by_cases hc2 : i < xmax.length
      · rw [getq_some hc2, Option.some.injEq] at hhb
        rw [← hhb]
        exact hmh i hi hc2
      · rw [getq_none (le_of_not_lt hc2)] at hhb
        exact Option.noConfusion hhb
    · rintro ⟨hc2, hv⟩
      rw [getq_some hc2] at hfix
      refine fixCoord_contract_upper hnlt _ hv ?_ (hmh i hi hc2) hfix
      intro lb hlb
      by_cases hc1 : i < xmin.length
      · rw [getq_some hc1, Option.some.injEq] at hlb
        rw [← hlb]
        exact hml i hi hc1
      · rw [getq_none (le_of_not_lt hc1)] at hlb
        exact Option.noConfusion hlb

/-- Witness for `C2_ensureBounds_policy` at a concrete input: with bounds
`[0,0]`/`[10,10]`, mean `[5,5]` and candidate `[-1,3]` only the first
coordinate is out of bounds, so it is clamped to `0` and the second left
unchanged. -/
theorem C2_ensureBounds_policy_witness :
    ∃ y, ensureBounds 3 [(0 : ℚ), 0] [10, 10] [5, 5] [-1, 3] = some y ∧
      y.getD 0 0 = 0 ∧ y.getD 1 0 = 3 := by
  obtain ⟨y, hy, hpt⟩ := (C2_ensureBounds_policy [0, 0] [10, 10] [5, 5] [-1, 3]
    (by intro i hi hc; have h2 : i < 2 := hi; interval_cases i <;> decide)
    (by intro i hi hc; have h2 : i < 2 := hi; interval_cases i <;> decide)).1 (by decide) 3
  refine ⟨y, hy, ?_, ?_⟩
  · exact (hpt 0 (by decide)).1 ⟨by decide, by decide⟩
  · refine (hpt 1 (by decide)).2.2 ?_ ?_
    · rintro ⟨_, hv⟩
      exact absurd hv (by decide)
    · rintro ⟨_, hv⟩
      exact absurd hv (by decide)

/-- Witness for `C10_on_bound_counted_never_clamped` at a concrete input:
candidate `[0,12]` with bounds `[0,0]`/`[10,10]` and mean `[5,5]` — the
first coordinate sits exactly on its lower bound (counted, not modified),
the second strictly violates its upper bound, the count is the full
dimension `2`, and the second coordinate is fixed by the midpoint loop to
`17/2` rather than clamped to `10`. -/
theorem C10_witness :
    boundedAt [(0 : ℚ), 0] [10, 10] [0, 12] 0 = true ∧
    nBounded [(0 : ℚ), 0] [10, 10] [0, 12] = 2 ∧
    ensureBounds 2 [(0 : ℚ), 0] [10, 10] [5, 5] [0, 12] = some [0, 17 / 2] ∧
    List.getD [(0 : ℚ), 17 / 2] 0 0 = List.getD [(0 : ℚ), 12] 0 0 ∧
    contractDown (10 : ℚ) 5 2 12 = some (List.getD [(0 : ℚ), 17 / 2] 1 0) := by
  have he : ensureBounds 2 [(0 : ℚ), 0] [10, 10] [5, 5] [0, 12] = some [0, 17 / 2] := by
    norm_num [ensureBounds, fixAll, fixCoord, nBounded, boundedAt, contractUp, contractDown,
      List.range_succ]
  have hA := C10_on_bound_counted_never_clamped.1 [0, 0] [10, 10] [5, 5] [0, 12] 0
    (by decide) (fun _ => by decide) (fun _ => by decide)
    (Or.inl ⟨by decide, by decide⟩)
  have hB := C10_on_bound_counted_never_clamped.2 [0, 0] [10, 10] [5, 5] [0, 12] 0
    (by intro i hi hc; have h2 : i < 2 := hi; interval_cases i <;> decide)
    (by intro i hi hc; have h2 : i < 2 := hi; interval_cases i <;> decide)
    (by decide) (fun _ => by decide) (fun _ => by decide)
    (Or.inl ⟨by decide, by decide⟩)
    (by
      intro i hi hne
      have h2 : i < 2 := hi
      interval_cases i
      · exact absurd rfl hne
      · exact Or.inr ⟨by decide, by decide⟩)
  exact ⟨hA.1, hB.1, he, hA.2 2 [0, 17 / 2] he,
    (hB.2 2 [0, 17 / 2] he 1 (by decide) (by decide)).2 ⟨by decide, by decide⟩⟩

/-! ## C4: best tracking lemmas -/

theorem bestIdxFrom_val : ∀ (l : List Fl) (i : ℕ) (b : ℤ) (bv : Fl),
    (bestIdxFrom i (b, bv) l).2 = (l.filter (fun v => !v.isNaN)).foldl flMinLate bv := by
  intro l
  induction l with
  | nil => intro i b bv; rfl
  | cons v rest ih =>
    intro i b bv
    by_cases hn : v.isNaN
    · simp only [bestIdxFrom, if_pos hn, List.filter_cons, hn]
      simpa using ih (i + 1) b bv
    · by_cases hle : Fl.fle v bv = true
      · simp only [bestIdxFrom, if_neg hn, if_pos hle, List.filter_cons]
        have hfv : (!v.isNaN) = true := by simp [hn]
        rw [if_pos hfv]
        rw [ih (i + 1) i v]
        simp only [List.foldl_cons]
        have : flMinLate bv v = v := by rw [flMinLate, if_pos hle]
        rw [this]
      · simp only [bestIdxFrom, if_neg hn, if_neg hle, List.filter_cons]
        have hfv : (!v.isNaN) = true := by simp [hn]
        rw [if_pos hfv]
        rw [ih (i + 1) b bv]
        simp only [List.foldl_cons]
        have : flMinLate bv v = bv := by rw [flMinLate, if_neg hle]
        rw [this]

theorem bestIdxFrom_index : ∀ (l : List Fl) (i : ℕ) (b : ℤ) (bv : Fl),
    bestIdxFrom i (b, bv) l = (b, bv) ∨
    ∃ j, j < l.length ∧ (bestIdxFrom i (b, bv) l).1 = (i : ℤ) + j ∧
      l.getD j Fl.nan = (bestIdxFrom i (b, bv) l).2 ∧
      (l.getD j Fl.nan).isNaN = false := by
  intro l
  induction l with
  | nil => intro i b bv; exact Or.inl rfl
  | cons v rest ih =>
    intro i b bv
    by_cases hn : v.isNaN
    · have hstep : bestIdxFrom i (b, bv) (v :: rest) = bestIdxFrom (i + 1) (b, bv) rest := by
        simp [bestIdxFrom, hn]
      rcases ih (i + 1) b bv with h | ⟨j, hj, h1, h2, h3⟩
      · exact Or.inl (hstep ▸ h)
      · refine Or.inr ⟨j + 1, by simpa using Nat.succ_lt_succ hj, ?_, ?_, ?_⟩
        · rw [hstep, h1]; push_cast; ring
        · rw [hstep]; simpa using h2
        · simpa using h3
    · by_cases hle : Fl.fle v bv = true
      · have hstep : bestIdxFrom i (b, bv) (v :: rest) =
            bestIdxFrom (i + 1) ((i : ℤ), v) rest := by
          simp [bestIdxFrom, hn, hle]
        rcases ih (i + 1) (i : ℤ) v with h | ⟨j, hj, h1, h2, h3⟩
        · refine Or.inr ⟨0, by simp, ?_, ?_, ?_⟩
          · rw [hstep, h]; simp
          · rw [hstep, h]; simp
          · simpa using Bool.eq_false_iff.mpr hn
        · refine Or.inr ⟨j + 1, by simpa using Nat.succ_lt_succ hj, ?_, ?_, ?_⟩
          · rw [hstep, h1]; push_cast; ring
          · rw [hstep]; simpa using h2
          · simpa using h3
      · have hstep : bestIdxFrom i (b, bv) (v :: rest) = bestIdxFrom (i + 1) (b, bv) rest := by
          simp [bestIdxFrom, hn, hle]
        rcases ih (i + 1) b bv with h | ⟨j, hj, h1, h2, h3⟩
        · exact Or.inl (hstep ▸ h)
        · refine Or.inr ⟨j + 1, by simpa using Nat.succ_lt_succ hj, ?_, ?_, ?_⟩
          · rw [hstep, h1]; push_cast; ring
          · rw [hstep]; simpa using h2
          · simpa using h3

theorem bestIdxFrom_all_nan : ∀ (l : List Fl) (i : ℕ),
    (bestIdxFrom i (-1, Fl.pinf) l).1 = -1 → ∀ v ∈ l, v.isNaN = true := by
  intro l
  induction l with
  | nil => intro i _ v hv; exact absurd hv (List.not_mem_nil v)
  | cons v rest ih =>
    intro i hres w hw
    by_cases hn : v.isNaN
    · have hstep : bestIdxFrom i (-1, Fl.pinf) (v :: rest) =
          bestIdxFrom (i + 1) (-1, Fl.pinf) rest := by
        simp [bestIdxFrom, hn]
      rcases List.mem_cons.mp hw with hwv | hwr
      · exact hwv ▸ hn
      · exact ih (i + 1) (hstep ▸ hres) w hwr
    · have hle : Fl.fle v Fl.pinf = true :=
        fle_pinf_of_not_nan (Bool.eq_false_iff.mpr hn)
      have hstep : bestIdxFrom i (-1, Fl.pinf) (v :: rest) =
          bestIdxFrom (i + 1) ((i : ℤ), v) rest := by
        simp [bestIdxFrom, hn, hle]
      exfalso
      rw [hstep] at hres
      rcases bestIdxFrom_index rest (i + 1) (i : ℤ) v with h | ⟨j, _, h1, _, _⟩
      · rw [h] at hres
        omega
      · rw [h1] at hres
        omega

theorem reported_forget_eq_specGenMin (fs : List Fl) (xs : List (List Fl)) (b : BestState) :
    (findBestAndUpdateTask true fs xs b).1.1 = specGenMin fs := by
  unfold findBestAndUpdateTask
  simp only [if_true]
  by_cases hb : bestIdx fs = -1
  · rw [if_pos hb]
    have hall := bestIdxFrom_all_nan fs 0 hb
    have hfilter : fs.filter (fun v => !v.isNaN) = [] := by
      rw [List.filter_eq_nil_iff]
      intro a ha
      simp [hall a ha]
    rw [specGenMin, hfilter]
  · rw [if_neg hb]
    rcases bestIdxFrom_index fs 0 (-1) Fl.pinf with h | ⟨j, hj, h1, h2, h3⟩
    · exact absurd (congrArg Prod.fst h) hb
    · have hbj : bestIdx fs = (j : ℤ) := by
        unfold bestIdx
        rw [h1]
        simp
      have htn : (bestIdx fs).toNat = j := by rw [hbj]; simp
      rw [htn]
      have hv := bestIdxFrom_val fs 0 (-1) Fl.pinf
      have hmem : fs.getD j Fl.nan ∈ fs.filter (fun v => !v.isNaN) := by
        apply List.mem_filter.mpr
        refine ⟨?_, by rw [h3]; rfl⟩
        rw [List.getD_eq_getElem fs Fl.nan hj]
        exact List.getElem_mem hj
      cases hf : fs.filter (fun v => !v.isNaN) with
      | nil => rw [hf] at hmem; exact absurd hmem (List.not_mem_nil _)
      | cons w ws =>
        have hwn : w.isNaN = false := by
          have : w ∈ fs.filter (fun v => !v.isNaN) := by rw [hf]; exact List.mem_cons_self w ws
          simpa using (List.mem_filter.mp this).2
        have hmin : flMinLate Fl.pinf w = w := by
          rw [flMinLate, if_pos (fle_pinf_of_not_nan hwn)]
        have : fs.getD j Fl.nan = (w :: ws).foldl flMinLate Fl.pinf := by
          rw [← hf, h2, hv]
        rw [specGenMin, hf]
        rw [this, List.foldl_cons, hmin]

/-- Forget-mode off: step preservation — the running best stays non-NaN. -/
theorem step_bestF_not_nan (fs : List Fl) (xs : List (List Fl)) (b : BestState)
    (hb : b.bestF.isNaN = false) :
    (findBestAndUpdateTask false fs xs b).2.bestF.isNaN = false := by
  unfold findBestAndUpdateTask
  simp only [Bool.false_eq_true, if_false]
  by_cases h : Fl.flt (if bestIdx fs = -1 then Fl.nan else fs.getD (bestIdx fs).toNat Fl.nan)
      b.bestF = true
  · rw [if_pos h]
    exact flt_isNaN_left h
  · rw [if_neg h]
    exact hb

/-- Forget-mode off: the running best never increases in one step. -/
theorem step_bestF_fle (fs : List Fl) (xs : List (List Fl)) (b : BestState)
    (hb : b.bestF.isNaN = false) :
    Fl.fle (findBestAndUpdateTask false fs xs b).2.bestF b.bestF = true := by
  unfold findBestAndUpdateTask
  simp only [Bool.false_eq_true, if_false]
  by_cases h : Fl.flt (if bestIdx fs = -1 then Fl.nan else fs.getD (bestIdx fs).toNat Fl.nan)
      b.bestF = true
  · rw [if_pos h]
    exact fle_of_flt h
  · rw [if_neg h]
    exact fle_refl_of_not_nan hb

/-- Forget-mode off: the reported fitness is the (new) running best. -/
theorem step_reported_eq_best (fs : List Fl) (xs : List (List Fl)) (b : BestState) :
    (findBestAndUpdateTask false fs xs b).1.1 = (findBestAndUpdateTask false fs xs b).2.bestF :=
  rfl

/-! ## C4: reporting and monotonicity of the best -/

/-- **C4**: with forget-mode off the running best is changed only when the
generation best strictly improves it (float `<`, so a NaN generation never
does), the reported fitness of every generation is the (new) running best,
and across generations the reported fitness sequence is non-increasing;
with forget-mode on the reported fitness is exactly the generation's minimum
non-NaN fitness (`specGenMin`, NaN when no fitness is non-NaN). -/
theorem C4_best_tracking (fs : List Fl) (xs : List (List Fl)) (b : BestState)
    (gens : List GenData) (hb : b.bestF.isNaN = false) :
    (findBestAndUpdateTask true fs xs b).1.1 = specGenMin fs ∧
    (findBestAndUpdateTask false fs xs b).1.1 =
      (findBestAndUpdateTask false fs xs b).2.bestF ∧
    ((findBestAndUpdateTask false fs xs b).2 ≠ b →
      Fl.flt ((findBestAndUpdateTask true fs xs b).1.1) b.bestF = true) ∧
    List.Chain' (fun a c => Fl.fle c a = true) (reportedSeq b gens) := by
  refine ⟨reported_forget_eq_specGenMin fs xs b, step_reported_eq_best fs xs b, ?_, ?_⟩
  · intro hne
    by_cases h : Fl.flt (if bestIdx fs = -1 then Fl.nan
        else fs.getD (bestIdx fs).toNat Fl.nan) b.bestF = true
    · exact h
    · exfalso
      apply hne
      unfold findBestAndUpdateTask
      simp only [Bool.false_eq_true, if_false]
      rw [if_neg h]
  · revert b
    induction gens with
    | nil => intro b hb; exact List.chain'_nil
    | cons g rest ih =>
      intro b hb
      rw [reportedSeq]
      rw [List.chain'_cons']
      refine ⟨?_, ih _ (step_bestF_not_nan g.1 g.2 b hb)⟩
      intro z hz
      cases rest with
      | nil => simp [reportedSeq] at hz
      | cons g2 rest2 =>
        simp only [reportedSeq, List.head?_cons, Option.mem_def, Option.some.injEq] at hz
        rw [← hz, step_reported_eq_best, step_reported_eq_best]
        exact step_bestF_fle g2.1 g2.2 _ (step_bestF_not_nan g.1 g.2 b hb)

/-- Witness for `C4_best_tracking` at concrete inputs: the generation
`[2, NaN, 1]` reports its minimum non-NaN fitness `1` under forget-mode,
and a two-generation run (bests `2` then `3`) yields a non-increasing
reported sequence. -/
theorem C4_best_tracking_witness :
    Fl.isNaN (Fl.pinf) = false ∧
    (findBestAndUpdateTask true [Fl.num 2, Fl.nan, Fl.num 1] [[Fl.num 7]]
      ⟨Fl.pinf, []⟩).1.1 = specGenMin [Fl.num 2, Fl.nan, Fl.num 1] ∧
    List.Chain' (fun a c => Fl.fle c a = true)
      (reportedSeq ⟨Fl.pinf, []⟩
        [([Fl.num 2], [[Fl.num 0]]), ([Fl.num 3], [[Fl.num 1]])]) := by
  refine ⟨by decide, ?_, ?_⟩
  · exact (C4_best_tracking [Fl.num 2, Fl.nan, Fl.num 1] [[Fl.num 7]] ⟨Fl.pinf, []⟩ []
      (by decide)).1
  · exact (C4_best_tracking [] [] ⟨Fl.pinf, []⟩
      [([Fl.num 2], [[Fl.num 0]]), ([Fl.num 3], [[Fl.num 1]])] (by decide)).2.2.2

/-! ## C1: the per-result protocol step -/

/-- **C1**: on each inbound `FuncEvaluation` result, under the protocol
invariant that fewer results than dispatches are in (and at most λ
dispatches), the step dispatches the next sample from slot `sentIdx` when
fewer than λ samples have been dispatched; otherwise waits while fewer than
λ results are in; and exactly when the λ-th result arrives it ends the
generation — resetting both counters to 0 and reporting the best before the
`update`/`methodConverged` pair (embedded separately) decides the outgoing
operation.  The `panic("bad logic")` guard is unreachable. -/
theorem C1_protocol_step (forget : Bool) (s : RunState) (id : ℕ) (f : Fl)
    (h1 : s.receivedIdx < s.sentIdx) (h2 : s.sentIdx ≤ s.pop) :
    (s.sentIdx < s.pop →
      (onFuncEvaluation forget s id f).2 = RunAction.dispatch s.sentIdx ∧
      (onFuncEvaluation forget s id f).1.sentIdx = s.sentIdx + 1 ∧
      (onFuncEvaluation forget s id f).1.receivedIdx = s.receivedIdx + 1) ∧
    (s.sentIdx = s.pop → s.receivedIdx + 1 < s.pop →
      (onFuncEvaluation forget s id f).2 = RunAction.awaitMore ∧
      (onFuncEvaluation forget s id f).1.receivedIdx = s.receivedIdx + 1 ∧
      (onFuncEvaluation forget s id f).1.sentIdx = s.sentIdx) ∧
    (s.sentIdx = s.pop → s.receivedIdx + 1 = s.pop →
      (onFuncEvaluation forget s id f).2 =
        RunAction.finishGeneration
          (findBestAndUpdateTask forget (s.fs.set id f) s.xs s.best).1.1
          (findBestAndUpdateTask forget (s.fs.set id f) s.xs s.best).1.2 ∧
      (onFuncEvaluation forget s id f).1.sentIdx = 0 ∧
      (onFuncEvaluation forget s id f).1.receivedIdx = 0) ∧
    ((∃ rf rx, (onFuncEvaluation forget s id f).2 = RunAction.finishGeneration rf rx) ↔
      s.receivedIdx + 1 = s.pop) ∧
    (onFuncEvaluation forget s id f).2 ≠ RunAction.badLogic := by
  by_cases hsp : s.sentIdx < s.pop
  · have hne : s.receivedIdx + 1 ≠ s.pop := by omega
    refine ⟨fun _ => ⟨?_, ?_, ?_⟩, fun he _ => absurd he (by omega), fun _ hre =>
      absurd hre hne, ⟨fun ⟨rf, rx, hfin⟩ => ?_, fun hre => absurd hre hne⟩, ?_⟩
    · simp [onFuncEvaluation, hsp]
    · simp [onFuncEvaluation, hsp]
    · simp [onFuncEvaluation, hsp]
    · rw [show (onFuncEvaluation forget s id f).2 = RunAction.dispatch s.sentIdx by
        simp [onFuncEvaluation, hsp]] at hfin
      exact RunAction.noConfusion hfin
    · rw [show (onFuncEvaluation forget s id f).2 = RunAction.dispatch s.sentIdx by
        simp [onFuncEvaluation, hsp]]
      exact fun h => RunAction.noConfusion h
  · have hsq : s.sentIdx = s.pop := by omega
    by_cases hr : s.receivedIdx + 1 < s.pop
    · have hne : s.receivedIdx + 1 ≠ s.pop := by omega
      refine ⟨fun hlt => absurd hlt hsp, fun _ _ => ⟨?_, ?_, ?_⟩, fun _ hre =>
        absurd hre hne, ⟨fun ⟨rf, rx, hfin⟩ => ?_, fun hre => absurd hre hne⟩, ?_⟩
      · simp [onFuncEvaluation, hsp, hr]
      · simp [onFuncEvaluation, hsp, hr]
      · simp [onFuncEvaluation, hsp, hr]
      · rw [show (onFuncEvaluation forget s id f).2 = RunAction.awaitMore by
          simp [onFuncEvaluation, hsp, hr]] at hfin
        exact RunAction.noConfusion hfin
      · rw [show (onFuncEvaluation forget s id f).2 = RunAction.awaitMore by
          simp [onFuncEvaluation, hsp, hr]]
        exact fun h => RunAction.noConfusion h
    · have hre : s.receivedIdx + 1 = s.pop := by omega
      have hnr : ¬ s.receivedIdx + 1 < s.pop := by omega
      refine ⟨fun hlt => absurd hlt hsp, fun _ hlt => absurd hlt hnr, fun _ _ =>
        ⟨?_, ?_, ?_⟩,
        ⟨fun _ => hre, fun _ =>
          ⟨(findBestAndUpdateTask forget (s.fs.set id f) s.xs s.best).1.1,
           (findBestAndUpdateTask forget (s.fs.set id f) s.xs s.best).1.2, ?_⟩⟩, ?_⟩
      · simp [onFuncEvaluation, hsp, hnr, hre]
      · simp [onFuncEvaluation, hsp, hnr, hre]
      · simp [onFuncEvaluation, hsp, hnr, hre]
      · simp [onFuncEvaluation, hsp, hnr, hre]
      · rw [show (onFuncEvaluation forget s id f).2 =
            RunAction.finishGeneration
              (findBestAndUpdateTask forget (s.fs.set id f) s.xs s.best).1.1
              (findBestAndUpdateTask forget (s.fs.set id f) s.xs s.best).1.2 by
          simp [onFuncEvaluation, hsp, hnr, hre]]
        exact fun h => RunAction.noConfusion h

/-- Witness for `C1_protocol_step` at a concrete state: population 1, one
sample dispatched, none yet received — the arriving result is the λ-th, so
the step ends the generation and resets both counters to 0. -/
theorem C1_protocol_step_witness :
    (0 : ℕ) < 1 ∧
    (onFuncEvaluation false ⟨1, 1, 0, [Fl.nan], [[Fl.num 0]], ⟨Fl.pinf, []⟩⟩ 0
      (Fl.num 3)).1.sentIdx = 0 ∧
    (onFuncEvaluation false ⟨1, 1, 0, [Fl.nan], [[Fl.num 0]], ⟨Fl.pinf, []⟩⟩ 0
      (Fl.num 3)).1.receivedIdx = 0 ∧
    (onFuncEvaluation false ⟨1, 1, 0, [Fl.nan], [[Fl.num 0]], ⟨Fl.pinf, []⟩⟩ 0
      (Fl.num 3)).2 =
      RunAction.finishGeneration
        (findBestAndUpdateTask false ([Fl.nan].set 0 (Fl.num 3)) [[Fl.num 0]]
          ⟨Fl.pinf, []⟩).1.1
        (findBestAndUpdateTask false ([Fl.nan].set 0 (Fl.num 3)) [[Fl.num 0]]
          ⟨Fl.pinf, []⟩).1.2 := by
  have h := C1_protocol_step false ⟨1, 1, 0, [Fl.nan], [[Fl.num 0]], ⟨Fl.pinf, []⟩⟩ 0
    (Fl.num 3) (by decide) (by decide)
  exact ⟨by decide, (h.2.2.1 rfl rfl).2.1, (h.2.2.1 rfl rfl).2.2, (h.2.2.1 rfl rfl).1⟩

/-! ## C8: the convergence criterion -/

/-- **C8**: the convergence monitor declares `MethodConverge` exactly when
the log determinant of the covariance (twice the summed logarithms of the
Cholesky diagonal) is below the threshold: the configured value when it is a
nonzero number, and the default `dim * ln(1e-16)` (the source's literal
constant `lnEps`) when the configured value is `0`; a NaN configured value
disables the criterion — it reports `NotTerminated` for every state. -/
theorem C8_convergence (d : ℕ) (diag : List ℝ) (q : ℚ) :
    methodConverged Fl.nan d diag = GoStatus.notTerminated ∧
    (methodConverged (Fl.num 0) d diag = GoStatus.methodConverge ↔
      logDet diag < (d : ℝ) * ((lnEps : ℚ) : ℝ)) ∧
    (q ≠ 0 →
      (methodConverged (Fl.num q) d diag = GoStatus.methodConverge ↔
        logDet diag < ((q : ℚ) : ℝ))) := by
  refine ⟨rfl, ?_, ?_⟩
  · by_cases h : logDet diag < (d : ℝ) * ((lnEps : ℚ) : ℝ) <;>
      simp [methodConverged, h]
  · intro hq
    by_cases h : logDet diag < ((q : ℚ) : ℝ) <;>
      simp [methodConverged, hq, h]

/-- Witness for `C8_convergence`: with factor diagonal `[1]` the log
determinant is `0`, so the NaN sentinel reports `NotTerminated` while the
(large) threshold `1` reports `MethodConverge`. -/
theorem C8_convergence_witness :
    methodConverged Fl.nan 1 [1] = GoStatus.notTerminated ∧
    (1 : ℚ) ≠ 0 ∧
    methodConverged (Fl.num 1) 1 [1] = GoStatus.methodConverge := by
  have h := C8_convergence 1 [1] 1
  refine ⟨h.1, by norm_num, (h.2.2 (by norm_num)).mpr ?_⟩
  show logDet [1] < ((1 : ℚ) : ℝ)
  simp [logDet, Real.log_one]

/-! ## C5 and C9: the Init contract -/

/-- **C5**: `Init` fails fatally on `dim <= 0`, on negative `tasks`, and on a
negative configured population; otherwise (with the step size and Cholesky
configuration valid) it returns `min(tasks, λ)`, where λ is the configured
population when positive and `4 + ⌊3·ln(dim)⌋` when the configured
population is `0`. -/
theorem C5_init_contract (cfg : Config) (dim tasks : ℤ) :
    (dim ≤ 0 → initModel cfg dim tasks = .error InitErr.nonpositiveDimension) ∧
    (0 < dim → tasks < 0 → initModel cfg dim tasks = .error InitErr.negativeTasks) ∧
    (0 < dim → 0 ≤ tasks → cfg.population < 0 →
      initModel cfg dim tasks = .error InitErr.negativePopulation) ∧
    (0 < dim → 0 ≤ tasks → 0 ≤ cfg.population → 0 ≤ cfg.initStepSize →
      (cfg.initCholeskyDim = none ∨ cfg.initCholeskyDim = some dim.toNat) →
      ∃ invS, initModel cfg dim tasks =
        .ok (if cfg.population = 0 then defaultPop dim.toNat else cfg.population, invS,
          min tasks
            (if cfg.population = 0 then defaultPop dim.toNat else cfg.population))) := by
  refine ⟨fun h => ?_, fun h1 h2 => ?_, fun h1 h2 h3 => ?_, fun h1 h2 h3 h4 h5 => ?_⟩
  · simp [initModel, h]
  · simp [initModel, not_le.mpr h1, h2]
  · have hne : cfg.population ≠ 0 := by omega
    simp [initModel, not_le.mpr h1, not_lt.mpr h2, hne, h3]
  · have hnp : ¬ cfg.population < 0 := not_lt.mpr h3
    have hns : ¬ cfg.initStepSize < 0 := not_lt.mpr h4
    by_cases hp : cfg.population = 0 <;> by_cases hs : cfg.initStepSize = 0
    · refine ⟨10 / 3, ?_⟩
      rcases h5 with hch | hch <;>
        simp [initModel, not_le.mpr h1, not_lt.mpr h2, hp, hs, hch]
    · refine ⟨1 / cfg.initStepSize, ?_⟩
      rcases h5 with hch | hch <;>
        simp [initModel, not_le.mpr h1, not_lt.mpr h2, hp, hs, hns, hch]
    · refine ⟨10 / 3, ?_⟩
      rcases h5 with hch | hch <;>
        simp [initModel, not_le.mpr h1, not_lt.mpr h2, hp, hnp, hs, hch]
    · refine ⟨1 / cfg.initStepSize, ?_⟩
      rcases h5 with hch | hch <;>
        simp [initModel, not_le.mpr h1, not_lt.mpr h2, hp, hnp, hs, hns, hch]

/-- Witness for `C5_init_contract`: dimension 1, two requested tasks,
population configured `0` — the default population is `4 + ⌊3·ln 1⌋ = 4`,
and the returned concurrency is `min(2, 4) = 2`. -/
theorem C5_init_contract_witness :
    defaultPop 1 = 4 ∧
    initModel ⟨0, 0, none⟩ 1 2 = .ok (4, 10 / 3, 2) := by
  have hd : defaultPop 1 = 4 := by
    rw [defaultPop]
    norm_num [Real.log_one]
  refine ⟨hd, ?_⟩
  obtain ⟨invS, hok⟩ := (C5_init_contract ⟨0, 0, none⟩ 1 2).2.2.2 (by norm_num)
    (by norm_num) (by norm_num) (by norm_num) (Or.inl rfl)
  have hinv : invS = 10 / 3 := by
    rw [show initModel ⟨0, 0, none⟩ 1 2 =
        .ok (defaultPop 1, 10 / 3, min 2 (defaultPop 1)) by simp [initModel]] at hok
    simp at hok
    exact hok.symm
  rw [hinv] at hok
  rw [hok]
  simp [hd]

/-- **C9, the code's behaviour at the failing input**: with `InitStepSize`
configured `0`, `Init` sets the inverse step size to `10/3` (step size
`0.3`), not to `2` (the inverse of the documented default step size `0.5`):
the code contradicts its own doc comment. -/
theorem C9_default_step_size :
    initModel ⟨0, 1, none⟩ 1 1 = .ok (1, 10 / 3, 1) ∧ (10 / 3 : ℚ) ≠ 1 / (1 / 2) := by
  constructor
  · simp [initModel]
  · norm_num

/-! ## C6: the triangular-solve failure path -/

/-- **C6**: when the triangular solve of `CholeskyFactor^T t = meanDiff`
fails (singular factor), `update` returns the error right there: the
Cholesky factor and the inverse step size of the resulting state are exactly
the incoming ones (only the mean, `p_c` and the already-scaled `p_s` were
mutated before the solve); with the error recorded, the status query returns
`Failure` carrying it, and the protocol's operation choice after the update
is the terminal `MethodDone`, for every convergence verdict. -/
theorem C6_solve_failure (P : CmaParams) (fuel : ℕ) (s : UpdState) (mean2 : List ℝ)
    (hm2 : ensureBounds fuel P.xmin P.xmax
        (recombine P.dim P.weights (goSortIdx s.fs) s.xs)
        (recombine P.dim P.weights (goSortIdx s.fs) s.xs) = some mean2)
    (hsing : triSolveT s.chol (zipSub mean2 s.mean) = none) :
    ∃ s', update P fuel s = some (s', some NumErr.singularFactor) ∧
      s'.chol = s.chol ∧ s'.invSigma = s.invSigma ∧ s'.mean = mean2 ∧
      (∀ sd d diag, statusOf (some NumErr.singularFactor) sd d diag =
        (GoStatus.failure, some NumErr.singularFactor)) ∧
      (∀ conv, afterUpdateOp (some NumErr.singularFactor) conv = TaskOp.methodDone) := by
  have hupd : update P fuel s =
      some ({ s with
                mean := mean2
                pc := addScaled (scaleList (1 - P.cc) s.pc)
                  (Real.sqrt (P.cc * (2 - P.cc) * P.muEff) * s.invSigma)
                  (zipSub mean2 s.mean)
                ps := scaleList (1 - P.cs) s.ps }, some NumErr.singularFactor) := by
    simp only [update, hm2, hsing]
  exact ⟨_, hupd, rfl, rfl, rfl, fun sd d diag => rfl, fun conv => rfl⟩

/-- Witness for `C6_solve_failure` at a concrete state: dimension 1, one
weight, no bounds, Cholesky factor `[[0]]` (zero diagonal, singular).  The
recombined mean is `[1]`, the solve fails, and the update aborts leaving the
factor and the inverse step size untouched. -/
theorem C6_solve_failure_witness :
    ∃ s', update ⟨1, [1], 0, 0, 0, 0, 0, 0, 0, [], []⟩ 0
        ⟨[0], [0], [0], [[0]], 1, [Fl.num 1], [[1]]⟩ =
        some (s', some NumErr.singularFactor) ∧
      s'.chol = [[(0 : ℝ)]] ∧ s'.invSigma = 1 := by
  have hm2 : ensureBounds 0 ([] : List ℝ) []
      (recombine 1 [1] (goSortIdx [Fl.num 1]) [[1]])
      (recombine 1 [1] (goSortIdx [Fl.num 1]) [[1]]) = some [1] := by
    norm_num [ensureBounds, fixAll, fixCoord, nBounded, boundedAt, recombine, goSortIdx,
      goSortPairs, goInsSortRev, goInsertRev, addScaled, List.range_succ]
  have hsing : triSolveT [[(0 : ℝ)]] (zipSub [1] [0]) = none := by
    norm_num [triSolveT, triSolveTAux, zipSub, entry]
  obtain ⟨s', h1, h2, h3, _, _, _⟩ := C6_solve_failure ⟨1, [1], 0, 0, 0, 0, 0, 0, 0, [], []⟩
    0 ⟨[0], [0], [0], [[0]], 1, [Fl.num 1], [[1]]⟩ [1] hm2 hsing
  exact ⟨s', h1, h2, h3⟩

/-! ## C7: the generation ranking -/

theorem isNaN_true_iff (u : Fl) : u.isNaN = true ↔ u = .nan := by
  cases u <;> simp [Fl.isNaN]

theorem specKeyLT_irrefl (u : Fl) : ¬ specKeyLT u u := by
  rintro (⟨h1, h2⟩ | h)
  · rw [h1] at h2; exact Bool.noConfusion h2
  · rw [flt_irrefl] at h; exact Bool.noConfusion h

theorem specKeyLT_trans {u v w : Fl} (h : specKeyLT u v) (h' : specKeyLT v w) :
    specKeyLT u w := by
  rcases h with ⟨h1, h2⟩ | h <;> rcases h' with ⟨h3, h4⟩ | h'
  · rw [h2] at h3; exact absurd h3 (by simp)
  · rw [flt_isNaN_left h'] at h2; exact absurd h2 (by simp)
  · exact Or.inl ⟨flt_isNaN_left h, h4⟩
  · exact Or.inr (flt_trans h h')

theorem specKeyLT_asymm {u v : Fl} (h : specKeyLT u v) : ¬ specKeyLT v u :=
  fun h' => specKeyLT_irrefl u (specKeyLT_trans h h')

instance : IsTrans (Fl × ℕ) specPairLE := by
  constructor
  rintro a b c (h | ⟨he, hle⟩) (h' | ⟨he', hle'⟩)
  · exact Or.inl (specKeyLT_trans h h')
  · exact Or.inl (by rw [← he']; exact h)
  · exact Or.inl (by rw [he]; exact h')
  · exact Or.inr ⟨he.trans he', le_trans hle hle'⟩

instance : IsAntisymm (Fl × ℕ) specPairLE := by
  constructor
  rintro a b (h | ⟨he, hle⟩) (h' | ⟨he', hle'⟩)
  · exact absurd h' (specKeyLT_asymm h)
  · rw [he'] at h; exact absurd h (specKeyLT_irrefl _)
  · rw [he] at h'; exact absurd h' (specKeyLT_irrefl _)
  · exact Prod.ext he (le_antisymm hle hle')

instance : IsTotal (Fl × ℕ) specPairLE := by
  constructor
  intro a b
  by_cases hab : a.1 = b.1
  · rcases le_total a.2 b.2 with h | h
    · exact Or.inl (Or.inr ⟨hab, h⟩)
    · exact Or.inr (Or.inr ⟨hab.symm, h⟩)
  · by_cases ha : a.1.isNaN = true <;> by_cases hb : b.1.isNaN = true
    · exact absurd (((isNaN_true_iff a.1).mp ha).trans
        ((isNaN_true_iff b.1).mp hb).symm) hab
    · exact Or.inr (Or.inl (Or.inl ⟨Bool.eq_false_iff.mpr hb, ha⟩))
    · exact Or.inl (Or.inl (Or.inl ⟨Bool.eq_false_iff.mpr ha, hb⟩))
    · rcases flt_total_of_ne (Bool.eq_false_iff.mpr ha) (Bool.eq_false_iff.mpr hb) hab
          with h | h
      · exact Or.inl (Or.inl (Or.inr h))
      · exact Or.inr (Or.inl (Or.inr h))


theorem goInsertRev_perm (p : Fl × ℕ) (rl : List (Fl × ℕ)) :
    List.Perm (goInsertRev p rl) (p :: rl) := by
  induction rl with
  | nil => exact List.Perm.refl _
  | cons q rl ih =>
    by_cases h : Fl.flt p.1 q.1 = true
    · rw [goInsertRev, if_pos h]
      exact (ih.cons q).trans (List.Perm.swap p q rl)
    · rw [goInsertRev, if_neg h]

theorem goInsSortRev_perm_aux :
    ∀ (l rl : List (Fl × ℕ)),
      List.Perm (l.foldl (fun rl p => goInsertRev p rl) rl) (rl ++ l) := by
  intro l
  induction l with
  | nil => intro rl; simp
  | cons p rest ih =>
    intro rl
    refine ((ih (goInsertRev p rl)).trans ?_)
    refine List.Perm.trans ((goInsertRev_perm p rl).append_right rest) ?_
    exact List.perm_middle.symm

theorem goSortPairs_perm (l : List (Fl × ℕ)) : List.Perm (goSortPairs l) l := by
  unfold goSortPairs goInsSortRev
  exact ((l.foldl (fun rl p => goInsertRev p rl) []).reverse_perm).trans
    (goInsSortRev_perm_aux l [])

theorem goInsertRev_sorted (p : Fl × ℕ) (rl : List (Fl × ℕ))
    (hp : p.1.isNaN = false) (hrl : ∀ q ∈ rl, q.1.isNaN = false)
    (hidx : ∀ q ∈ rl, q.2 < p.2)
    (hs : List.Sorted (fun a b => specPairLE b a) rl) :
    List.Sorted (fun a b => specPairLE b a) (goInsertRev p rl) := by
  induction rl with
  | nil => simp [goInsertRev]
  | cons q rl ih =>
    rw [List.sorted_cons] at hs
    obtain ⟨hq, hs'⟩ := hs
    by_cases h : Fl.flt p.1 q.1 = true
    · rw [goInsertRev, if_pos h]
      rw [List.sorted_cons]
      constructor
      · intro z hz
        rcases List.mem_cons.mp ((goInsertRev_perm p rl).mem_iff.mp hz) with hzp | hzr
        · rw [hzp]
          exact Or.inl (Or.inr h)
        · exact hq z hzr
      · exact ih (fun q' hq' => hrl q' (List.mem_cons_of_mem _ hq'))
          (fun q' hq' => hidx q' (List.mem_cons_of_mem _ hq')) hs'
    · rw [goInsertRev, if_neg h]
      have hqp : specPairLE q p := by
        by_cases h2 : Fl.flt q.1 p.1 = true
        · exact Or.inl (Or.inr h2)
        · have hqn : q.1.isNaN = false := hrl q (List.mem_cons_self q rl)
          have heq : q.1 = p.1 :=
            eq_of_not_flt hqn hp (Bool.eq_false_iff.mpr h2) (Bool.eq_false_iff.mpr h)
          exact Or.inr ⟨heq, le_of_lt (hidx q (List.mem_cons_self q rl))⟩
      rw [List.sorted_cons]
      constructor
      · intro z hz
        rcases List.mem_cons.mp hz with hzq | hzr
        · rw [hzq]
          exact hqp
        · exact IsTrans.trans z q p (hq z hzr) hqp
      · rw [List.sorted_cons]
        exact ⟨hq, hs'⟩

theorem goInsSortRev_sorted :
    ∀ (l rl : List (Fl × ℕ)),
      (∀ q ∈ l, q.1.isNaN = false) → (∀ q ∈ rl, q.1.isNaN = false) →
      (∀ q ∈ rl, ∀ p ∈ l, q.2 < p.2) →
      List.Pairwise (fun a b => a.2 < b.2) l →
      List.Sorted (fun a b => specPairLE b a) rl →
      List.Sorted (fun a b => specPairLE b a)
        (l.foldl (fun rl p => goInsertRev p rl) rl) := by
  intro l
  induction l with
  | nil => intro rl _ _ _ _ hs; exact hs
  | cons p rest ih =>
    intro rl hl hrl hidx hpw hs
    rw [List.pairwise_cons] at hpw
    obtain ⟨hhead, htail⟩ := hpw
    refine ih (goInsertRev p rl) (fun q hq => hl q (List.mem_cons_of_mem _ hq)) ?_ ?_
      htail ?_
    · intro q hq
      rcases List.mem_cons.mp ((goInsertRev_perm p rl).mem_iff.mp hq) with hqp | hqr
      · rw [hqp]
        exact hl p (List.mem_cons_self p rest)
      · exact hrl q hqr
    · intro q hq p' hp'
      rcases List.mem_cons.mp ((goInsertRev_perm p rl).mem_iff.mp hq) with hqp | hqr
      · rw [hqp]
        exact hhead p' hp'
      · exact hidx q hqr p' (List.mem_cons_of_mem _ hp')
    · exact goInsertRev_sorted p rl (hl p (List.mem_cons_self p rest)) hrl
        (fun q hq => hidx q hq p (List.mem_cons_self p rest)) hs

theorem goSortPairs_sorted (l : List (Fl × ℕ))
    (hnn : ∀ q ∈ l, q.1.isNaN = false)
    (hpw : List.Pairwise (fun a b : Fl × ℕ => a.2 < b.2) l) :
    List.Sorted specPairLE (goSortPairs l) := by
  unfold goSortPairs goInsSortRev
  exact List.pairwise_reverse.mpr
    (goInsSortRev_sorted l [] hnn (by simp) (by simp) hpw List.sorted_nil)

theorem zip_range_pairwise (fs : List Fl) :
    List.Pairwise (fun a b : Fl × ℕ => a.2 < b.2) (fs.zip (List.range fs.length)) := by
  rw [List.pairwise_iff_getElem]
  intro i j hi hj hij
  have hi' : i < fs.length := by
    simp only [List.length_zip, List.length_range, min_self] at hi
    exact hi
  have hj' : j < fs.length := by
    simp only [List.length_zip, List.length_range, min_self] at hj
    exact hj
  rw [List.getElem_zip, List.getElem_zip]
  simpa using hij

theorem zip_range_not_nan (fs : List Fl) (hnn : ∀ v ∈ fs, v.isNaN = false) :
    ∀ q ∈ fs.zip (List.range fs.length), q.1.isNaN = false := by
  rintro ⟨a, b⟩ hq
  exact hnn a (List.of_mem_zip hq).1

/-- For a NaN-free fitness vector, the index permutation the source's sort
produces is exactly the claimed stable ascending NaN-last ranking (unique by
antisymmetry of the pair order on distinct original indices). -/
theorem goSortIdx_eq_specStableRanking (fs : List Fl)
    (hnn : ∀ v ∈ fs, v.isNaN = false) :
    goSortIdx fs = specStableRanking fs := by
  unfold goSortIdx specStableRanking
  congr 1
  exact List.eq_of_perm_of_sorted
    ((goSortPairs_perm _).trans (List.perm_insertionSort specPairLE _).symm)
    (goSortPairs_sorted _ (zip_range_not_nan fs hnn) (zip_range_pairwise fs))
    (List.sorted_insertionSort specPairLE _)

/-- **C7 counterexample**: the ranking of the code is not the claimed
stable NaN-last ascending ranking.  On the fitness vector `[NaN, 1]` the
comparator `F[i] < F[j]` is false in both directions against NaN, so the
insertion sort leaves the NaN in front: the code ranks index 0 (the NaN
sample) first, while a ranking in which NaN sorts as worse than any finite
value ranks index 1 first. -/
theorem C7_counterexample :
    goSortIdx [Fl.nan, Fl.num 1] = [0, 1] ∧
    specStableRanking [Fl.nan, Fl.num 1] = [1, 0] ∧
    goSortIdx [Fl.nan, Fl.num 1] ≠ specStableRanking [Fl.nan, Fl.num 1] :=
  ⟨by decide, by decide, by decide⟩

theorem addScaled_getD (acc src : List ℝ) (c : ℝ) (j : ℕ) (hj : j < acc.length)
    (hl : acc.length ≤ src.length) :
    (addScaled acc c src).getD j 0 = acc.getD j 0 + c * src.getD j 0 := by
  have hjz : j < (List.zipWith (fun d s => d + c * s) acc src).length := by
    rw [List.length_zipWith]
    omega
  rw [addScaled, List.getD_eq_getElem _ _ hjz, List.getElem_zipWith,
    List.getD_eq_getElem acc 0 hj, List.getD_eq_getElem src 0 (by omega)]

theorem recombine_foldl_getD (xs : List (List ℝ)) (dim : ℕ) :
    ∀ (w : List ℝ) (idxs : List ℕ) (acc : List ℝ),
      w.length ≤ idxs.length → acc.length = dim →
      (∀ p ∈ w.zip idxs, (xs.getD p.2 []).length = dim) →
      ∀ j, j < dim →
        ((w.zip idxs).foldl (fun a wi => addScaled a wi.1 (xs.getD wi.2 [])) acc).getD j 0 =
          acc.getD j 0 + ∑ i in Finset.range w.length,
            w.getD i 0 * ((xs.getD (idxs.getD i 0) []).getD j 0) := by
  intro w
  induction w with
  | nil =>
    intro idxs acc _ _ _ j _
    simp
  | cons w0 wr ih =>
    intro idxs acc hwi hacc hrows j hj
    cases idxs with
    | nil => simp at hwi
    | cons i0 ir =>
      have hzip : (w0 :: wr).zip (i0 :: ir) = (w0, i0) :: wr.zip ir := rfl
      have hrow0 : (xs.getD i0 []).length = dim :=
        hrows (w0, i0) (by rw [hzip]; exact List.mem_cons_self _ _)
      have hlen : (addScaled acc w0 (xs.getD i0 [])).length = dim := by
        rw [addScaled, List.length_zipWith, hacc, hrow0]
        omega
      rw [hzip, List.foldl_cons]
      rw [ih ir (addScaled acc w0 (xs.getD i0 [])) (by simpa using hwi) hlen
        (fun p hp => hrows p (by rw [hzip]; exact List.mem_cons_of_mem _ hp)) j hj]
      rw [addScaled_getD acc (xs.getD i0 []) w0 j (by omega) (by omega)]
      simp only [List.length_cons]
      rw [Finset.sum_range_succ']
      simp only [List.getD_cons_succ, List.getD_cons_zero]
      ring

/-- The recombination of `update` is the weighted sum: coordinate `j` of the
computed mean is `Σ_i w_i · xs[idxs_i][j]`. -/
theorem recombine_getD (dim : ℕ) (w : List ℝ) (idxs : List ℕ) (xs : List (List ℝ))
    (hwi : w.length ≤ idxs.length)
    (hrows : ∀ p ∈ w.zip idxs, (xs.getD p.2 []).length = dim) :
    ∀ j, j < dim →
      (recombine dim w idxs xs).getD j 0 =
        ∑ i in Finset.range w.length,
          w.getD i 0 * ((xs.getD (idxs.getD i 0) []).getD j 0) := by
  intro j hj
  rw [recombine, recombine_foldl_getD xs dim w idxs (List.replicate dim 0) hwi
    (List.length_replicate dim 0) hrows j hj]
  rw [List.getD_eq_getElem _ _ (by simpa using hj), List.getElem_replicate]
  ring

theorem goSortIdx_length (fs : List Fl) : (goSortIdx fs).length = fs.length := by
  unfold goSortIdx
  rw [List.length_map, (goSortPairs_perm _).length_eq, List.length_zip,
    List.length_range, min_self]

theorem goSortIdx_mem_lt (fs : List Fl) : ∀ a ∈ goSortIdx fs, a < fs.length := by
  intro a ha
  unfold goSortIdx at ha
  rw [List.mem_map] at ha
  obtain ⟨q, hq, hqa⟩ := ha
  have hqL : q ∈ fs.zip (List.range fs.length) := (goSortPairs_perm _).mem_iff.mp hq
  have := (List.of_mem_zip hqL).2
  rw [List.mem_range] at this
  rw [← hqa]
  exact this

/-- **C7 (amended)**: for populations small enough that Go's `sort.Sort` is
the plain insertion sort (λ ≤ 6) and a generation whose λ fitness values are
all non-NaN, the ranking computed at the start of the generation update is
exactly the stable ascending ranking, and the new mean is the weighted sum
over the μ best-ranked samples with the weights `w_1..w_μ`.  (A NaN fitness,
however, is incomparable under the code's comparator `F[i] < F[j]` and does
not sort as worse than every finite value — see the counterexample.) -/
theorem C7_amended (P : CmaParams) (s : UpdState)
    (hnn : ∀ v ∈ s.fs, v.isNaN = false)
    (hlen6 : s.fs.length ≤ 6)
    (hw : P.weights.length ≤ s.fs.length)
    (hxs : s.xs.length = s.fs.length)
    (hrows : ∀ row ∈ s.xs, row.length = P.dim) :
    goSortIdx s.fs = specStableRanking s.fs ∧
    ∀ j, j < P.dim →
      (recombine P.dim P.weights (goSortIdx s.fs) s.xs).getD j 0 =
        ∑ i in Finset.range P.weights.length,
          P.weights.getD i 0 *
            ((s.xs.getD ((goSortIdx s.fs).getD i 0) []).getD j 0) := by
  refine ⟨goSortIdx_eq_specStableRanking s.fs hnn, ?_⟩
  have hwi : P.weights.length ≤ (goSortIdx s.fs).length := by
    rw [goSortIdx_length]
    exact hw
  refine recombine_getD P.dim P.weights (goSortIdx s.fs) s.xs hwi ?_
  intro p hp
  have hp2 : p.2 ∈ goSortIdx s.fs := (List.of_mem_zip (a := p.1) (b := p.2) hp).2
  have hlt : p.2 < s.xs.length := by
    rw [hxs]
    exact goSortIdx_mem_lt s.fs p.2 hp2
  have hmem : s.xs.getD p.2 [] ∈ s.xs := by
    rw [List.getD_eq_getElem _ _ hlt]
    exact List.getElem_mem hlt
  exact hrows _ hmem

/-- Witness for `C7_amended` at concrete inputs: fitnesses `[2, 1]` (no
NaN), one weight `1`; the ranking is `[1, 0]` — the stable ascending
ranking — and the recombined mean is the second sample `[7]`. -/
theorem C7_amended_witness :
    goSortIdx [Fl.num 2, Fl.num 1] = specStableRanking [Fl.num 2, Fl.num 1] ∧
    (recombine 1 [1] (goSortIdx [Fl.num 2, Fl.num 1]) [[5], [7]]).getD 0 0 =
      ∑ i in Finset.range 1,
        List.getD [(1 : ℝ)] i 0 *
          ((List.getD [[(5 : ℝ)], [7]] ((goSortIdx [Fl.num 2, Fl.num 1]).getD i 0)
            []).getD 0 0) := by
  have h := C7_amended ⟨1, [1], 0, 0, 0, 0, 0, 0, 0, [], []⟩
    ⟨[0], [0], [0], [[1]], 1, [Fl.num 2, Fl.num 1], [[5], [7]]⟩
    (by decide) (by decide) (by decide) (by decide)
    (by
      intro row hr
      rcases List.mem_cons.mp hr with rfl | hr2
      · rfl
      · rcases List.mem_cons.mp hr2 with rfl | h3
        · rfl
        · exact absurd h3 (List.not_mem_nil _))
  exact ⟨h.1, h.2 0 (by decide)⟩
